import Mathlib

/-!
Verification of the `notes` package of the release-notes generator.

The Go source (`notes/notes.go`) is shallowly embedded below.  Machine
strings are modelled as `String` / `List Char`; the handful of fixed
regular expressions the code compiles are embedded as specialised total
functions whose semantics follow Go's RE2 leftmost-first matching for
those concrete patterns.  The GitHub remote is modelled as an explicit
environment of fallible lookup functions (`Except RemoteErr`).
-/

namespace ReleaseNotes

/-! ## Character classes and small string primitives -/
/-- RE2's Perl class `\s` is exactly `[\t\n\f\r ]`. -/
def isRE2Space (c : Char) : Bool :=
  c = ' ' || c = '\t' || c = '\n' || c = '\x0c' || c = '\r'

/-- Go `unicode.IsSpace`, restricted to the code points it recognises
(ASCII whitespace plus the Unicode space separators); used by
`strings.TrimSpace`. -/
def isGoSpace (c : Char) : Bool :=
  c = '\t' || c = '\n' || c = '\x0b' || c = '\x0c' || c = '\r' || c = ' ' ||
  c.toNat = 0x85 || c.toNat = 0xa0 || c.toNat = 0x1680 ||
  (0x2000 <= c.toNat && c.toNat <= 0x200a) ||
  c.toNat = 0x2028 || c.toNat = 0x2029 || c.toNat = 0x202f ||
  c.toNat = 0x205f || c.toNat = 0x3000

/-- Decimal value of a digit run, as `strconv.Atoi` computes it
(integer overflow is not modelled; values are `Nat`). -/
def digitsToNat (ds : List Char) : Nat :=
  ds.foldl (fun a c => 10 * a + (c.toNat - 48)) 0

/-- Boolean string-prefix test on character lists (Go `strings.HasPrefix`
on the byte level; all patterns used by the program are ASCII, for which
byte- and character-level prefixes coincide). -/
def pfxOf : List Char → List Char → Bool
  | [], _ => true
  | _ :: _, [] => false
  | a :: as, b :: bs => a = b && pfxOf as bs

/-- Go `regexp.MatchString` for a fixed literal pattern: the literal
occurs as a substring. -/
def containsSub (pat : List Char) : List Char → Bool
  | [] => pat.isEmpty
  | c :: rest => pfxOf pat (c :: rest) || containsSub pat rest

/-- Unanchored search: some suffix of the subject satisfies the anchored
matcher `f` (this includes the empty suffix at end of subject). -/
def anywhere (f : List Char → Bool) : List Char → Bool
  | [] => f []
  | c :: rest => f (c :: rest) || anywhere f rest

/-- Model of `strings.TrimRight s "\r"`: remove every trailing carriage return. -/
def trimRightCR : List Char → List Char
  | [] => []
  | c :: rest =>
    match trimRightCR rest with
    | [] => if c = '\r' then [] else [c]
    | r => c :: r

/-- Model of `strings.TrimSpace`: strip `unicode.IsSpace` characters from both ends. -/
def goTrimSpace (l : List Char) : List Char :=
  ((l.dropWhile isGoSpace).reverse.dropWhile isGoSpace).reverse

/-- Generic left-to-right `ReplaceAllString(s, "")` scanner: at each
position, `step` reports the length of an anchored match (which is then
deleted and skipped) or `none` (the character is kept).  The fuel is the
subject length; it only decreases as characters are consumed, so the
zero-fuel arm is never reached on a nonempty subject. -/
def scanReplace (step : List Char → Option Nat) : Nat → List Char → List Char
  | 0, l => l
  | _ + 1, [] => []
  | fuel + 1, c :: rest =>
    match step (c :: rest) with
    | some k => scanReplace step fuel (rest.drop (k - 1))
    | none => c :: scanReplace step fuel rest

/-- Generic `FindAllStringSubmatch` scanner: at each position `step`
reports a captured value and the match length, or `none`. -/
def scanCollect (step : List Char → Option (Nat × Nat)) : Nat → List Char → List Nat
  | 0, _ => []
  | _ + 1, [] => []
  | fuel + 1, c :: rest =>
    match step (c :: rest) with
    | some q => q.1 :: scanCollect step fuel (rest.drop (q.2 - 1))
    | none => scanCollect step fuel rest

/-! ## The PR-trailer regex

`PRFromCommit` and `ReleaseNoteFromCommit` both compile
`` `\(#(?P<number>\d+)\)` `` and run it over the FULL commit message.  At a
given position the pattern matches deterministically: a literal `(#`,
a nonempty maximal digit run, then a literal `)`. -/
/-- Anchored match of `\(#(\d+)\)` at the head of `l`: the captured digit
run, if the pattern matches there. -/
def prMatchCore : List Char → Option (List Char)
  | '(' :: '#' :: rest =>
    if (rest.takeWhile Char.isDigit).isEmpty then none
    else
      match rest.drop (rest.takeWhile Char.isDigit).length with
      | ')' :: _ => some (rest.takeWhile Char.isDigit)
      | _ => none
  | _ => none

/-- Anchored match: the captured number (`strconv.Atoi` of the digit run). -/
def prMatchAt (l : List Char) : Option Nat :=
  (prMatchCore l).map digitsToNat

/-- Anchored match: the length of the whole match `(#<digits>)`. -/
def prMatchLen (l : List Char) : Option Nat :=
  (prMatchCore l).map (fun ds => ds.length + 3)

/-- Model of `FindStringSubmatch` for `\(#(\d+)\)`: leftmost match, captured number. -/
def findPRNumber : List Char → Option Nat
  | [] => none
  | c :: rest =>
    match prMatchAt (c :: rest) with
    | some n => some n
    | none => findPRNumber rest

/-- Model of `ReplaceAllString(s, "")` for `\(#(\d+)\)`: delete every
non-overlapping leftmost match, scanning left to right. -/
def removeAllPR (l : List Char) : List Char :=
  scanReplace prMatchLen l.length l

/-- The first token produced by `bufio.Scanner` with the default
`ScanLines` split: everything before the first newline, with one
trailing carriage return dropped. -/
def firstLineChars (l : List Char) : List Char :=
  let line := l.takeWhile (fun c => c ≠ '\n')
  match line.getLast? with
  | some '\r' => line.dropLast
  | _ => line

/-! ## The closing-keyword issue regex

`IssueNumbersFromCommit` compiles
`` `(?i)(Close|Closes|Closed|Fix|Fixes|Fixed|Resolve|Resolves|Resolved) #?(?P<number>\d+)` ``
and collects all non-overlapping matches over the full commit message.
Alternatives are tried in written order (RE2 leftmost-first priority);
case folding is modelled at the ASCII level, which is exact for these
all-ASCII keywords. -/
def closeKeywords : List String :=
  ["Close", "Closes", "Closed", "Fix", "Fixes", "Fixed",
   "Resolve", "Resolves", "Resolved"]

/-- Case-insensitive character comparison (ASCII folding). -/
def ciCharEq (a b : Char) : Bool := a.toLower = b.toLower

/-- Case-insensitive prefix test. -/
def ciPfxOf : List Char → List Char → Bool
  | [], _ => true
  | _ :: _, [] => false
  | a :: as, b :: bs => ciCharEq a b && ciPfxOf as bs

/-- Anchored match of `` ` #?(\d+)` `` (the part of the issue pattern after
the keyword): returns the captured number and the number of characters
consumed. -/
def issueSuffixAt : List Char → Option (Nat × Nat)
  | ' ' :: '#' :: rest2 =>
    if (rest2.takeWhile Char.isDigit).isEmpty then none
    else some (digitsToNat (rest2.takeWhile Char.isDigit),
               2 + (rest2.takeWhile Char.isDigit).length)
  | ' ' :: rest =>
    if (rest.takeWhile Char.isDigit).isEmpty then none
    else some (digitsToNat (rest.takeWhile Char.isDigit),
               1 + (rest.takeWhile Char.isDigit).length)
  | _ => none

/-- Anchored match of the whole issue pattern: first keyword alternative
(in written order) that yields a complete match wins.  Returns the
captured number and the total match length. -/
def issueMatchAt (l : List Char) : Option (Nat × Nat) :=
  closeKeywords.findSome? (fun kw =>
    if ciPfxOf kw.data l then
      (issueSuffixAt (l.drop kw.data.length)).map
        (fun q => (q.1, kw.data.length + q.2))
    else none)

/-- Leftmost match of the issue pattern: the captured number. -/
def findFirstIssue : List Char → Option Nat
  | [] => none
  | c :: rest =>
    match issueMatchAt (c :: rest) with
    | some q => some q.1
    | none => findFirstIssue rest

/-- Model of `FindAllStringSubmatch` for the issue pattern: the captured numbers of
all non-overlapping matches, scanning left to right. -/
def findAllIssueNumbers (l : List Char) : List Nat :=
  scanCollect issueMatchAt l.length l

/-! ## `NoteTextFromString`

Four fence patterns are tried in fixed order; each uses a greedy `.+`
capture (`.` matches any character except newline).  The leftmost match
wins within each pattern. -/
/-- Anchored match of `<fence>(.+)` at the head of `l`: greedy capture of
the nonempty run of non-newline characters after the fence. -/
def noteCapAt (fence : List Char) (l : List Char) : Option (List Char) :=
  if pfxOf fence l then
    if ((l.drop fence.length).takeWhile (fun c => c ≠ '\n')).isEmpty then none
    else some ((l.drop fence.length).takeWhile (fun c => c ≠ '\n'))
  else none

/-- Greedy search for the closing delimiter: the largest `j` with
`1 ≤ j ≤ k` such that `close` occurs at offset `j` of `tail`. -/
def greedyClose (close tail : List Char) : Nat → Option Nat
  | 0 => none
  | j + 1 =>
    if pfxOf close (tail.drop (j + 1)) then some (j + 1)
    else greedyClose close tail j

/-- Anchored match of `<fence>(.+)<close>` at the head of `l`: greedy
nonempty capture of non-newline characters followed by the closing
delimiter. -/
def fencedCapAt (fence close : List Char) (l : List Char) : Option (List Char) :=
  if pfxOf fence l then
    match greedyClose close (l.drop fence.length)
        ((l.drop fence.length).takeWhile (fun c => c ≠ '\n')).length with
    | some j => some ((l.drop fence.length).take j)
    | none => none
  else none

/-- Unanchored leftmost application of an anchored capturing matcher. -/
def findNoteCap (step : List Char → Option (List Char)) :
    List Char → Option (List Char)
  | [] => step []
  | c :: rest =>
    match step (c :: rest) with
    | some cap => some cap
    | none => findNoteCap step rest

/-- The four patterns of `NoteTextFromString`, tried in source order. -/
def noteCapture (l : List Char) : Option (List Char) :=
  match findNoteCap (noteCapAt ("```release-note\r\n").data) l with
  | some cap => some cap
  | none =>
    match findNoteCap (noteCapAt ("```dev-release-note\r\n").data) l with
    | some cap => some cap
    | none =>
      match findNoteCap (fencedCapAt ("```\r\n").data ("\r\n```").data) l with
      | some cap => some cap
      | none =>
        findNoteCap (fencedCapAt ("```release-note\n").data ("\n```").data) l

/-- Anchored test for `(?i)<lit>\s`: the literal case-insensitively,
followed by one whitespace character. -/
def ciWsMatchAt (lit l : List Char) : Bool :=
  ciPfxOf lit l &&
    (match l.drop lit.length with
     | c :: _ => isRE2Space c
     | [] => false)

/-- Model of `ReplaceAllString(note, "")` for `(?i)<lit>\s`: delete every
non-overlapping leftmost match (the literal plus the following
whitespace character). -/
def removeAllCiLitWs (lit : List Char) (l : List Char) : List Char :=
  scanReplace (fun t => if ciWsMatchAt lit t then some (lit.length + 1) else none)
    l.length l

/-- Model of `stripActionRequired`: two `ReplaceAllString` passes, in source order. -/
def stripActionRequiredChars (note : List Char) : List Char :=
  removeAllCiLitWs ("action required:").data
    (removeAllCiLitWs ("[action required]").data note)

/-- Anchored test for `(?i)\*\s`: a star followed by one whitespace
character. -/
def starWsAt : List Char → Bool
  | '*' :: c :: _ => isRE2Space c
  | _ => false

/-- Model of `stripStar`: `ReplaceAllString` for `(?i)\*\s` — delete every
non-overlapping leftmost star-plus-whitespace match. -/
def stripStarChars (l : List Char) : List Char :=
  scanReplace (fun t => if starWsAt t then some 2 else none) l.length l

/-! ### Characterization of the fence matchers -/
/-- Some position of `l` carries a nonempty non-newline capture right
after `fence` (spec-side description of an open-fence match). -/
def OpenFenceMatch (fence l : List Char) : Prop :=
  ∃ pre cap post, l = pre ++ fence ++ cap ++ post ∧ cap ≠ [] ∧
    ∀ c ∈ cap, c ≠ '\n'

/-- Some position of `l` carries a nonempty non-newline capture between
`fence` and `close` (spec-side description of a closed-fence match). -/
def ClosedFenceMatch (fence close l : List Char) : Prop :=
  ∃ pre cap post, l = pre ++ fence ++ cap ++ close ++ post ∧ cap ≠ [] ∧
    ∀ c ∈ cap, c ≠ '\n'

/-- The disjunction of the four fence variants, in source order. -/
def AnyFenceMatch (l : List Char) : Prop :=
  OpenFenceMatch ("```release-note\r\n").data l ∨
  OpenFenceMatch ("```dev-release-note\r\n").data l ∨
  ClosedFenceMatch ("```\r\n").data ("\r\n```").data l ∨
  ClosedFenceMatch ("```release-note\n").data ("\n```").data l

/-! ## Data model and remote environment -/
/-- A failed remote lookup, as surfaced by the GitHub client
(`NotFoundError` / `TransportError` in the spec's taxonomy). -/
inductive RemoteErr
  | notFound
  | transport
deriving DecidableEq, Repr

/-- A Go `error` value as the `notes` package distinguishes them: either
an `errors.New` message, or an error returned by a remote call.
`errors.Wrapf` context added by `ReleaseNoteFromCommit` is not modelled
because no caller inspects it. -/
inductive GoErr
  | msg (s : String)
  | remote (e : RemoteErr)
deriving DecidableEq, Repr

/-- Model of `github.RepositoryCommit`, restricted to the fields the package
reads: `GetSHA`, `Commit.Message`, `GetAuthor().GetLogin()`. -/
structure Commit where
  sha : String
  message : String
  authorLogin : String
deriving DecidableEq, Repr

/-- Model of `github.PullRequest`, restricted to the fields the package reads. -/
structure PullRequest where
  number : Nat
  body : String
  userLogin : String
  labels : List String
deriving DecidableEq, Repr

/-- Model of `github.Issue`, restricted to the fields the package reads. -/
structure Issue where
  labels : List String
deriving DecidableEq, Repr

/-- The `ReleaseNote` output record (verbatim field list). -/
structure ReleaseNote where
  commit : String
  text : String
  markdown : String
  author : String
  authorUrl : String
  prUrl : String
  prNumber : Nat
  areas : List String
  kinds : List String
  sigs : List String
  feature : Bool
  duplicate : Bool
  actionRequired : Bool
deriving DecidableEq, Repr

/-- The remote GitHub API, as the fixed collaborator interface consumed
by the package: boundary-commit lookup, one page of the commit listing
(returning the server-reported last page), pull-request lookup and issue
lookup. -/
structure Env where
  getCommit : String → Except RemoteErr Commit
  listPage : Nat → Except RemoteErr (List Commit × Nat)
  getPR : Nat → Except RemoteErr PullRequest
  getIssue : Nat → Except RemoteErr Issue

/-- Decidable equality for `Except` results, to let witnesses evaluate
the pipeline on concrete environments. -/
instance instDecEqExcept {ε α : Type} [DecidableEq ε] [DecidableEq α] :
    DecidableEq (Except ε α) := fun a b =>
  match a, b with
  | .error e1, .error e2 =>
    if h : e1 = e2 then isTrue (by rw [h])
    else isFalse (fun hc => h (by injection hc))
  | .error _, .ok _ => isFalse (fun hc => Except.noConfusion hc)
  | .ok _, .error _ => isFalse (fun hc => Except.noConfusion hc)
  | .ok a1, .ok a2 =>
    if h : a1 = a2 then isTrue (by rw [h])
    else isFalse (fun hc => h (by injection hc))

/-! ## Label helpers (`notes.go` bottom half) -/
/-- Model of `StringsWithPrefix`: suffixes (after the prefix) of the strings that
start with `p`. -/
def stringsWithPfx (xs : List String) (p : String) : List String :=
  xs.filterMap (fun x =>
    if pfxOf p.data x.data then some (String.mk (x.data.drop p.data.length))
    else none)

/-- Model of `HasString`: membership of a literal string. -/
def hasString (a : List String) (x : String) : Bool :=
  a.any (fun n => x = n)

/-- Model of `IsActionRequired`: the PR carries the literal label
`release-note-action-required`. -/
def isActionRequired (pr : PullRequest) : Bool :=
  pr.labels.any (fun label => label = "release-note-action-required")

/-- Modelled from the spec: `prettifySigList` lives in a source file that
is not part of the provided sources (only its call site in
`ReleaseNoteFromCommit` is).  Per the spec's Label Classifier contract it
formats an ordered SIG-suffix set into a human-readable
`sig/a, sig/b`-style string, with the empty set mapping to the empty
string. -/
def prettifySigList (sigs : List String) : String :=
  String.intercalate ", " (sigs.map (fun sg => "sig/" ++ sg))

/-! ## `PRFromCommit`, `IssueNumbersFromCommit`, `GetIssue` -/
/-- Model of `PRFromCommit`: extract the PR number from the full commit message
with the trailer regex, then fetch the pull request.  A parse failure is
the exact `errors.New` message that `ListCommitsWithNotes` compares
against. -/
def prFromCommit (env : Env) (c : Commit) : Except GoErr PullRequest :=
  match findPRNumber c.message.data with
  | none => .error (.msg "no matches found when parsing PR from commit")
  | some n =>
    match env.getPR n with
    | .error re => .error (.remote re)
    | .ok pr => .ok pr

/-- Model of `IssueNumbersFromCommit`: run the closing-keyword regex over the full
message.  The source builds its result list by iterating the pattern's
subexpression names over `matches[0]` only, so a successful return is
always a one-element list holding the first match's number. -/
def issueNumbersFromCommit (c : Commit) : Except GoErr (List Nat) :=
  match findAllIssueNumbers c.message.data with
  | [] => .error (.msg "no matches found when parsing Issues from commit")
  | n :: _ => .ok [n]

/-- The issue-resolution prelude of `ReleaseNoteFromCommit`: a parse
failure of `IssueNumbersFromCommit` is tolerated (no issue), while a
failing `GetIssue` remote call aborts the commit. -/
def resolveIssue (env : Env) (c : Commit) : Except GoErr (Option Issue) :=
  match issueNumbersFromCommit c with
  | .error _ => .ok none
  | .ok issues =>
    match issues with
    | [] => .ok none
    | n :: _ =>
      match env.getIssue n with
      | .error re => .error (.remote re)
      | .ok i => .ok (some i)

/-! ## `ReleaseNoteFromCommit` -/
/-- The `isFeature` classification of `ReleaseNoteFromCommit`: the PR
carries a `kind/` label with suffix `feature`; otherwise an issue was
resolved and does not carry a `bug` label; otherwise false. -/
def featureOf (pr : PullRequest) (iss : Option Issue) : Bool :=
  if hasString (stringsWithPfx pr.labels "kind/") "feature" then true
  else
    match iss with
    | some i => ! hasString i.labels "bug"
    | none => false

/-- The `areas` computation of `ReleaseNoteFromCommit`: the PR's `area/`
labels, falling back to the issue's when the PR has none and an issue was
resolved. -/
def areasOf (pr : PullRequest) (iss : Option Issue) : List String :=
  match iss with
  | some i =>
    if (stringsWithPfx pr.labels "area/").isEmpty then stringsWithPfx i.labels "area/"
    else stringsWithPfx pr.labels "area/"
  | none => stringsWithPfx pr.labels "area/"

/-- The `IsDuplicate` / `noteSuffix` computation of
`ReleaseNoteFromCommit` (one `if` chain in the source sets both). -/
def dupAndSuffixOf (pr : PullRequest) (iss : Option Issue) : Bool × String :=
  if isActionRequired pr || featureOf pr iss then
    (false,
      if prettifySigList (stringsWithPfx pr.labels "sig/") ≠ "" then
        "Courtesy of " ++ prettifySigList (stringsWithPfx pr.labels "sig/")
      else "")
  else if (stringsWithPfx pr.labels "sig/").length > 1 then (true, "")
  else (false, "")

/-- The pure tail of `ReleaseNoteFromCommit`, after the pull request and
the optional issue have been resolved. -/
def buildNote (c : Commit) (pr : PullRequest) (iss : Option Issue) : ReleaseNote :=
  let text := String.mk (goTrimSpace (removeAllPR (firstLineChars c.message.data)))
  let isFeature : Bool := featureOf pr iss
  let areas := areasOf pr iss
  let author := pr.userLogin
  let authorUrl := "https://github.com/" ++ author
  let prUrl := "https://github.com/netdata/netdata/pull/" ++ toString pr.number
  let sigs := stringsWithPfx pr.labels "sig/"
  let dupAndSuffix : Bool × String := dupAndSuffixOf pr iss
  let md := text ++ " ([#" ++ toString pr.number ++ "](" ++ prUrl ++ "), [@" ++
    author ++ "](" ++ authorUrl ++ "))"
  let markdown := if dupAndSuffix.2 ≠ "" then md ++ " " ++ dupAndSuffix.2 else md
  { commit := c.sha
    text := text
    markdown := markdown
    author := author
    authorUrl := authorUrl
    prUrl := prUrl
    prNumber := pr.number
    areas := areas
    kinds := stringsWithPfx pr.labels "kind/"
    sigs := sigs
    feature := isFeature
    duplicate := dupAndSuffix.1
    actionRequired := isActionRequired pr }

/-- Model of `ReleaseNoteFromCommit`: resolve the PR (any failure aborts the
commit), resolve the issue (only a remote failure aborts), then build the
note. -/
def releaseNoteFromCommit (env : Env) (c : Commit) : Except GoErr ReleaseNote :=
  match prFromCommit env c with
  | .error e => .error e
  | .ok pr =>
    match resolveIssue env c with
    | .error e => .error e
    | .ok iss => .ok (buildNote c pr iss)

/-! ## `ListCommits` -/
/-- The pagination loop of `ListCommits`: fetch the given pages in order,
appending each page's commits; any page failure aborts.  (The loop bound
comes from the FIRST response's `LastPage`, which is why the page list is
computed up front.) -/
def fetchRemainingPages (env : Env) : List Nat → List Commit → Except RemoteErr (List Commit)
  | [], acc => .ok acc
  | p :: ps, acc =>
    match env.listPage p with
    | .error e => .error e
    | .ok (cs, _) => fetchRemainingPages env ps (acc ++ cs)

/-- Model of `ListCommits`: resolve both boundary commits (failures abort), fetch
page 1, then pages `2 .. lastPage`. -/
def listCommits (env : Env) (startSha endSha : String) : Except RemoteErr (List Commit) :=
  match env.getCommit startSha with
  | .error e => .error e
  | .ok _ =>
    match env.getCommit endSha with
    | .error e => .error e
    | .ok _ =>
      match env.listPage 1 with
      | .error e => .error e
      | .ok (cs, last) => fetchRemainingPages env (List.range' 2 (last - 1)) cs

/-! ## `ListCommitsWithNotes` -/
/-- One entry of `exclusionFilters`: all are literal substrings except
the second, which contains `\s+`. -/
inductive XPat
  | lit (s : String)
  | fenceWsNone

/-- Anchored matcher for `` ```release-note\r\n\s+NONE ``: the fence,
then one or more whitespace characters, then `NONE`. -/
def wsThenLit (lit : List Char) : List Char → Bool
  | [] => false
  | c :: rest => isRE2Space c && (pfxOf lit rest || wsThenLit lit rest)

def fenceWsNoneAt (l : List Char) : Bool :=
  pfxOf ("```release-note\r\n").data l &&
    wsThenLit ("NONE").data (l.drop ("```release-note\r\n").length)

def xpatMatch : XPat → List Char → Bool
  | .lit s, body => containsSub s.data body
  | .fenceWsNone, body => anywhere fenceWsNoneAt body

/-- The `exclusionFilters` table, verbatim (including the duplicate first
and third entries). -/
def exclusionFilters : List XPat :=
  [ .lit "```release-note\r\nNONE",
    .fenceWsNone,
    .lit "```release-note\r\nNONE",
    .lit "```release-note\r\n\"NONE\"",
    .lit "```release-note\r\nNone",
    .lit "```release-note\r\nnone",
    .lit "```release-note\r\nN/A",
    .lit "```release-note\r\n\r\n```",
    .lit "```release-note\r\n```",
    .lit "/release-note-none",
    .lit "\r\n\r\nNONE",
    .lit "```NONE\r\n```",
    .lit "```release-note \r\nNONE\r\n```",
    .lit "NONE\r\n```",
    .lit "\r\nNone",
    .lit "\r\nNONE\r\n" ]

/-- The exclusion loop: any filter matching the PR body drops the commit. -/
def excludedBody (body : List Char) : Bool :=
  exclusionFilters.any (fun p => xpatMatch p body)

/-- One entry of `inclusionFilters`: the catch-all `.*`, a literal, or
the legacy prompt whose regex ends in `change?` (the `?` makes the final
`e` optional). -/
inductive IPat
  | dotStar
  | lit (s : String)
  | litOptE (s : String)

def ipatMatch : IPat → List Char → Bool
  | .dotStar, _ => true
  | .lit s, body => containsSub s.data body
  | .litOptE s, body =>
    anywhere (fun l => pfxOf (s.data ++ ['e']) l || pfxOf s.data l) body

/-- The `inclusionFilters` table, verbatim. -/
def inclusionFilters : List IPat :=
  [ .dotStar,
    .lit "release-note",
    .litOptE "Does this PR introduce a user-facing chang" ]

/-- The inclusion loop: the source appends the commit once PER matching
inclusion filter (there is no break). -/
def includeContribution (body : List Char) (c : Commit) : List Commit :=
  (inclusionFilters.filter (fun p => ipatMatch p body)).map (fun _ => c)

/-- The per-commit body of the `ListCommitsWithNotes` loop.  A parse
failure of `PRFromCommit` is recognised BY ERROR MESSAGE and skips the
commit; any other `PRFromCommit` failure leaves `pr` nil, whose `GetBody`
getter returns the empty string. -/
def notesFilterStep (env : Env) (c : Commit) : List Commit :=
  match prFromCommit env c with
  | .error e =>
    if e = .msg "no matches found when parsing PR from commit" then []
    else if excludedBody [] then [] else includeContribution [] c
  | .ok pr =>
    if excludedBody pr.body.data then [] else includeContribution pr.body.data c

/-- Model of `ListCommitsWithNotes`. -/
def listCommitsWithNotes (env : Env) (startSha endSha : String) :
    Except RemoteErr (List Commit) :=
  match listCommits env startSha endSha with
  | .error e => .error e
  | .ok commits => .ok (commits.flatMap (notesFilterStep env))

/-! ## `ListReleaseNotes` -/
/-- The body of the `ListReleaseNotes` loop, with the dedupe cache
carried explicitly (the Go map is only ever used for membership). -/
def listReleaseNotesLoop (env : Env) : List Commit → List String → List ReleaseNote
  | [], _ => []
  | c :: cs, seen =>
    if c.authorLogin = "netdatabot" then listReleaseNotesLoop env cs seen
    else
      match releaseNoteFromCommit env c with
      | .error _ => listReleaseNotesLoop env cs seen
      | .ok note =>
        if String.mk (goTrimSpace note.text.data) = "NONE" then
          listReleaseNotesLoop env cs seen
        else if seen.contains note.text then listReleaseNotesLoop env cs seen
        else note :: listReleaseNotesLoop env cs (note.text :: seen)

/-- Model of `ListReleaseNotes`. -/
def listReleaseNotes (env : Env) (startSha endSha : String) :
    Except RemoteErr (List ReleaseNote) :=
  match listCommitsWithNotes env startSha endSha with
  | .error e => .error e
  | .ok commits => .ok (listReleaseNotesLoop env commits [])

/-! ## Spec-side reference functions -/
/-- Spec-side: the per-commit note candidates in order — non-bot commits
whose note assembly succeeds and whose trimmed text is not `NONE`. -/
def noteCandidates (env : Env) (cs : List Commit) : List ReleaseNote :=
  cs.filterMap (fun c =>
    if c.authorLogin = "netdatabot" then none
    else
      match releaseNoteFromCommit env c with
      | .error _ => none
      | .ok note =>
        if String.mk (goTrimSpace note.text.data) = "NONE" then none
        else some note)

/-- Spec-side: stable first-wins deduplication keyed on exact note text,
given the set of texts already seen. -/
def dedupeByText (seen : List String) : List ReleaseNote → List ReleaseNote
  | [] => []
  | n :: ns =>
    if seen.contains n.text then dedupeByText seen ns
    else n :: dedupeByText (n.text :: seen) ns

/-- Model of `NoteTextFromString`: try the four fence patterns in order; trim
trailing carriage returns from the winning capture, then apply
`stripActionRequired` and `stripStar`.  (This function is compiled into
the package and exercised by `ListCommitsWithNotes`'s siblings; its call
site inside `ReleaseNoteFromCommit` is commented out.) -/
def noteTextFromString (s : String) : Except GoErr String :=
  match noteCapture s.data with
  | some cap =>
    .ok (String.mk (stripStarChars (stripActionRequiredChars (trimRightCR cap))))
  | none => .error (.msg "no matches found when parsing note text from commit string")

/-! ## Concrete environments for witnesses and counterexamples -/
def happyCommit : Commit := ⟨"abc123", "Fix widget (#7)", "alice"⟩

def happyPR : PullRequest := ⟨7, "release-note", "alice", []⟩

def happyEnv : Env where
  getCommit := fun _ => .ok happyCommit
  listPage := fun p => if p = 1 then .ok ([happyCommit], 1) else .error .transport
  getPR := fun n => if n = 7 then .ok happyPR else .error .notFound
  getIssue := fun _ => .error .notFound

def happyNote : ReleaseNote := buildNote happyCommit happyPR none

def c4Commit : Commit := ⟨"def456", "Fix thing (#9)", "bob"⟩

def c4Env : Env where
  getCommit := fun _ => .ok c4Commit
  listPage := fun p => if p = 1 then .ok ([c4Commit], 1) else .error .transport
  getPR := fun _ => .error .transport
  getIssue := fun _ => .error .notFound

def c2Commit : Commit := ⟨"ghi789", "Fix stuff\n(#99)", "carol"⟩

def c2PR : PullRequest := ⟨99, "", "carol", []⟩

def c2Env : Env where
  getCommit := fun _ => .ok c2Commit
  listPage := fun _ => .error .transport
  getPR := fun n => if n = 99 then .ok c2PR else .error .notFound
  getIssue := fun _ => .error .notFound

theorem scanReplace_fuel_irrel (step : List Char → Option Nat) :
    ∀ fuel1 fuel2 l, l.length ≤ fuel1 → l.length ≤ fuel2 →
      scanReplace step fuel1 l = scanReplace step fuel2 l := by
  intro fuel1
  induction fuel1 with
  | zero =>
    intro fuel2 l h1 _
    have : l = [] := by
      cases l with
      | nil => rfl
      | cons c cs => simp at h1
    subst this
    cases fuel2 <;> rfl
  | succ m ih =>
    intro fuel2 l h1 h2
    cases l with
    | nil => cases fuel2 <;> rfl
    | cons c rest =>
      cases fuel2 with
      | zero => simp at h2
      | succ m2 =>
        show (match step (c :: rest) with
          | some k => scanReplace step m (rest.drop (k - 1))
          | none => c :: scanReplace step m rest) =
          (match step (c :: rest) with
          | some k => scanReplace step m2 (rest.drop (k - 1))
          | none => c :: scanReplace step m2 rest)
        cases hm : step (c :: rest) with
        | some k =>
          have hd : (rest.drop (k - 1)).length ≤ rest.length := by
            rw [List.length_drop]
            omega
          have hl1 : (rest.drop (k - 1)).length ≤ m := by
            simp only [List.length_cons] at h1
            omega
          have hl2 : (rest.drop (k - 1)).length ≤ m2 := by
            simp only [List.length_cons] at h2
            omega
          show scanReplace step m (rest.drop (k - 1)) =
            scanReplace step m2 (rest.drop (k - 1))
          exact ih m2 (rest.drop (k - 1)) hl1 hl2
        | none =>
          have hl1 : rest.length ≤ m := by
            simp only [List.length_cons] at h1
            omega
          have hl2 : rest.length ≤ m2 := by
            simp only [List.length_cons] at h2
            omega
          show c :: scanReplace step m rest = c :: scanReplace step m2 rest
          rw [ih m2 rest hl1 hl2]

theorem scanCollect_fuel_irrel (step : List Char → Option (Nat × Nat)) :
    ∀ fuel1 fuel2 l, l.length ≤ fuel1 → l.length ≤ fuel2 →
      scanCollect step fuel1 l = scanCollect step fuel2 l := by
  intro fuel1
  induction fuel1 with
  | zero =>
    intro fuel2 l h1 _
    have : l = [] := by
      cases l with
      | nil => rfl
      | cons c cs => simp at h1
    subst this
    cases fuel2 <;> rfl
  | succ m ih =>
    intro fuel2 l h1 h2
    cases l with
    | nil => cases fuel2 <;> rfl
    | cons c rest =>
      cases fuel2 with
      | zero => simp at h2
      | succ m2 =>
        show (match step (c :: rest) with
          | some q => q.1 :: scanCollect step m (rest.drop (q.2 - 1))
          | none => scanCollect step m rest) =
          (match step (c :: rest) with
          | some q => q.1 :: scanCollect step m2 (rest.drop (q.2 - 1))
          | none => scanCollect step m2 rest)
        cases hm : step (c :: rest) with
        | some q =>
          have hl1 : (rest.drop (q.2 - 1)).length ≤ m := by
            have := List.length_drop (q.2 - 1) rest
            simp only [List.length_cons] at h1
            omega
          have hl2 : (rest.drop (q.2 - 1)).length ≤ m2 := by
            have := List.length_drop (q.2 - 1) rest
            simp only [List.length_cons] at h2
            omega
          show q.1 :: scanCollect step m (rest.drop (q.2 - 1)) =
            q.1 :: scanCollect step m2 (rest.drop (q.2 - 1))
          rw [ih m2 (rest.drop (q.2 - 1)) hl1 hl2]
        | none =>
          have hl1 : rest.length ≤ m := by
            simp only [List.length_cons] at h1
            omega
          have hl2 : rest.length ≤ m2 := by
            simp only [List.length_cons] at h2
            omega
          show scanCollect step m rest = scanCollect step m2 rest
          rw [ih m2 rest hl1 hl2]

/-! ### Basic lemmas about the primitives -/
theorem pfxOf_iff (p l : List Char) : pfxOf p l = true ↔ ∃ t, l = p ++ t := by
  induction p generalizing l with
  | nil => simp [pfxOf]
  | cons a as ih =>
    cases l with
    | nil => simp [pfxOf]
    | cons b bs =>
      simp only [pfxOf, Bool.and_eq_true, decide_eq_true_eq, ih, List.cons_append,
        List.cons.injEq]
      constructor
      · rintro ⟨rfl, t, rfl⟩; exact ⟨t, rfl, rfl⟩
      · rintro ⟨t, rfl, rfl⟩; exact ⟨rfl, t, rfl⟩

theorem containsSub_iff (pat l : List Char) :
    containsSub pat l = true ↔ ∃ pre post, l = pre ++ pat ++ post := by
  induction l with
  | nil =>
    simp only [containsSub, List.isEmpty_iff]
    constructor
    · rintro rfl; exact ⟨[], [], rfl⟩
    · rintro ⟨pre, post, h⟩
      have h1 := (List.append_eq_nil.mp h.symm).1
      exact (List.append_eq_nil.mp h1).2
  | cons c rest ih =>
    simp only [containsSub, Bool.or_eq_true, pfxOf_iff, ih]
    constructor
    · rintro (⟨t, ht⟩ | ⟨pre, post, hp⟩)
      · exact ⟨[], t, by simpa using ht⟩
      · exact ⟨c :: pre, post, by simp [hp]⟩
    · rintro ⟨pre, post, hp⟩
      cases pre with
      | nil => exact Or.inl ⟨post, by simpa using hp⟩
      | cons p ps =>
        right
        simp only [List.cons_append] at hp
        injection hp with _ h2
        exact ⟨ps, post, h2⟩

theorem anywhere_iff (f : List Char → Bool) (l : List Char) :
    anywhere f l = true ↔ ∃ n, f (l.drop n) = true := by
  induction l with
  | nil =>
    simp only [anywhere]
    exact ⟨fun h => ⟨0, by simpa using h⟩, fun ⟨n, h⟩ => by simpa using h⟩
  | cons c rest ih =>
    simp only [anywhere, Bool.or_eq_true, ih]
    constructor
    · rintro (h | ⟨n, hn⟩)
      · exact ⟨0, by simpa using h⟩
      · exact ⟨n + 1, by simpa using hn⟩
    · rintro ⟨n, hn⟩
      cases n with
      | zero => exact Or.inl (by simpa using hn)
      | succ m => exact Or.inr ⟨m, by simpa using hn⟩

theorem drop_decomposition (l t : List Char) :
    (∃ n, l.drop n = t) ↔ ∃ pre, l = pre ++ t := by
  constructor
  · rintro ⟨n, rfl⟩; exact ⟨l.take n, (List.take_append_drop n l).symm⟩
  · rintro ⟨pre, rfl⟩; exact ⟨pre.length, by simp⟩

theorem takeWhile_app_of_all (p : Char → Bool) (l₁ l₂ : List Char)
    (h : ∀ c ∈ l₁, p c = true) :
    (l₁ ++ l₂).takeWhile p = l₁ ++ l₂.takeWhile p := by
  induction l₁ with
  | nil => rfl
  | cons x xs ih =>
    rw [List.cons_append, List.takeWhile_cons, if_pos (h x (List.mem_cons_self x xs)),
      ih (fun c hc => h c (List.mem_cons_of_mem x hc)), List.cons_append]

theorem takeWhile_app_stop (p : Char → Bool) (l₁ : List Char) (c : Char) (l₂ : List Char)
    (h : ∀ x ∈ l₁, p x = true) (hc : p c = false) :
    (l₁ ++ c :: l₂).takeWhile p = l₁ := by
  rw [takeWhile_app_of_all p l₁ (c :: l₂) h]
  simp [List.takeWhile_cons, hc]

theorem trimRightCR_cons_of_ne (c : Char) (rest : List Char)
    (hr : trimRightCR rest ≠ []) :
    trimRightCR (c :: rest) = c :: trimRightCR rest := by
  simp only [trimRightCR]

theorem trimRightCR_spec (l : List Char) :
    ∃ k, l = trimRightCR l ++ List.replicate k '\r' ∧
      (trimRightCR l).getLast? ≠ some '\r' := by
  induction l with
  | nil => exact ⟨0, by simp [trimRightCR]⟩
  | cons c rest ih =>
    obtain ⟨k, hk, hlast⟩ := ih
    by_cases hr : trimRightCR rest = []
    · rw [hr] at hk
      by_cases hc : c = '\r'
      · refine ⟨k + 1, ?_, ?_⟩
        · simp only [trimRightCR, hr, hc, if_true]
          simpa [List.replicate_succ] using congrArg (fun t => '\r' :: t) hk
        · simp [trimRightCR, hr, hc]
      · refine ⟨k, ?_, ?_⟩
        · simp only [trimRightCR, hr, hc, if_false]
          simpa using congrArg (fun t => c :: t) hk
        · simp [trimRightCR, hr, hc, List.getLast?, hc]
    · refine ⟨k, ?_, ?_⟩
      · rw [trimRightCR_cons_of_ne c rest hr, List.cons_append, ← hk]
      · rw [trimRightCR_cons_of_ne c rest hr]
        cases h : trimRightCR rest with
        | nil => exact absurd h hr
        | cons x xs =>
          rw [h] at hlast
          simpa [List.getLast?_cons_cons, h] using hlast

theorem removeAllPR_nil : removeAllPR [] = [] := rfl

theorem removeAllPR_cons (c : Char) (rest : List Char) :
    removeAllPR (c :: rest) =
      match prMatchLen (c :: rest) with
      | some k => removeAllPR (rest.drop (k - 1))
      | none => c :: removeAllPR rest := by
  show scanReplace prMatchLen (rest.length + 1) (c :: rest) = _
  show (match prMatchLen (c :: rest) with
    | some k => scanReplace prMatchLen rest.length (rest.drop (k - 1))
    | none => c :: scanReplace prMatchLen rest.length rest) = _
  cases hm : prMatchLen (c :: rest) with
  | some k =>
    exact scanReplace_fuel_irrel prMatchLen rest.length (rest.drop (k - 1)).length
      (rest.drop (k - 1)) (by rw [List.length_drop]; omega) (le_refl _)
  | none => rfl

/-! ### Characterization of the PR-trailer regex -/
theorem takeWhile_length_drop (p : Char → Bool) (l : List Char) :
    l.drop (l.takeWhile p).length = l.dropWhile p := by
  induction l with
  | nil => simp
  | cons a as ih =>
    by_cases h : p a
    · simp [List.takeWhile_cons, List.dropWhile_cons, h, ih]
    · simp [List.takeWhile_cons, List.dropWhile_cons, h]

theorem takeWhile_drop_split (p : Char → Bool) (l : List Char) :
    l.takeWhile p ++ l.drop (l.takeWhile p).length = l := by
  rw [takeWhile_length_drop]; exact List.takeWhile_append_dropWhile p l

theorem prMatchCore_some_iff (t ds : List Char) :
    prMatchCore t = some ds ↔
      ∃ post, t = '(' :: '#' :: (ds ++ ')' :: post) ∧ ds ≠ [] ∧
        ∀ c ∈ ds, c.isDigit = true := by
  constructor
  · intro h
    unfold prMatchCore at h
    split at h
    · rename_i rest
      split at h
      · exact absurd h (by simp)
      · rename_i hne
        split at h
        · rename_i post heq
          simp only [Option.some.injEq] at h
          subst h
          refine ⟨post, ?_, by simpa [List.isEmpty_iff] using hne,
            fun c hc => List.mem_takeWhile_imp hc⟩
          have hsp := takeWhile_drop_split Char.isDigit rest
          have hrest : rest = List.takeWhile Char.isDigit rest ++ ')' :: post := by
            rw [← heq]; exact hsp.symm
          conv_lhs => rw [hrest]
        · exact absurd h (by simp)
    · exact absurd h (by simp)
  · rintro ⟨post, rfl, hne, hdig⟩
    have htake : (ds ++ ')' :: post).takeWhile Char.isDigit = ds :=
      takeWhile_app_stop _ _ _ _ hdig (by decide)
    have hdrop : (ds ++ ')' :: post).drop ds.length = ')' :: post :=
      List.drop_left ds (')' :: post)
    simp only [prMatchCore, htake, hdrop, List.isEmpty_iff, hne, if_false]

theorem prMatchAt_some_iff (t : List Char) (n : Nat) :
    prMatchAt t = some n ↔
      ∃ ds post, t = '(' :: '#' :: (ds ++ ')' :: post) ∧ ds ≠ [] ∧
        (∀ c ∈ ds, c.isDigit = true) ∧ n = digitsToNat ds := by
  simp only [prMatchAt, Option.map_eq_some', prMatchCore_some_iff]
  constructor
  · rintro ⟨ds, ⟨post, rfl, hne, hdig⟩, rfl⟩
    exact ⟨ds, post, rfl, hne, hdig, rfl⟩
  · rintro ⟨ds, post, rfl, hne, hdig, rfl⟩
    exact ⟨ds, ⟨post, rfl, hne, hdig⟩, rfl⟩

theorem prMatchAt_isSome_iff (t : List Char) :
    (prMatchAt t).isSome = true ↔
      ∃ ds post, t = '(' :: '#' :: (ds ++ ')' :: post) ∧ ds ≠ [] ∧
        ∀ c ∈ ds, c.isDigit = true := by
  rw [Option.isSome_iff_exists]
  constructor
  · rintro ⟨n, hn⟩
    obtain ⟨ds, post, h1, h2, h3, _⟩ := (prMatchAt_some_iff t n).mp hn
    exact ⟨ds, post, h1, h2, h3⟩
  · rintro ⟨ds, post, h1, h2, h3⟩
    exact ⟨digitsToNat ds, (prMatchAt_some_iff t _).mpr ⟨ds, post, h1, h2, h3, rfl⟩⟩

theorem findPRNumber_none_iff (l : List Char) :
    findPRNumber l = none ↔ ∀ k, prMatchAt (l.drop k) = none := by
  induction l with
  | nil => simp [findPRNumber, prMatchAt, prMatchCore]
  | cons c rest ih =>
    simp only [findPRNumber]
    constructor
    · intro h k
      revert h
      cases hm : prMatchAt (c :: rest) with
      | some n => intro h; exact absurd h (by simp)
      | none =>
        intro h
        cases k with
        | zero => simpa using hm
        | succ m => exact (ih.mp h) m
    · intro h
      have h0 := h 0
      simp only [List.drop_zero] at h0
      rw [h0]
      exact ih.mpr (fun k => h (k + 1))

theorem findPRNumber_some_char (l : List Char) (n : Nat) :
    findPRNumber l = some n →
      ∃ k, prMatchAt (l.drop k) = some n ∧ ∀ j < k, prMatchAt (l.drop j) = none := by
  induction l with
  | nil => exact fun h => absurd h (by simp [findPRNumber])
  | cons c rest ih =>
    intro h
    simp only [findPRNumber] at h
    cases hm : prMatchAt (c :: rest) with
    | some m =>
      rw [hm] at h
      simp only [Option.some.injEq] at h
      subst h
      exact ⟨0, by simpa using hm, by omega⟩
    | none =>
      rw [hm] at h
      obtain ⟨k, hk, hbefore⟩ := ih h
      refine ⟨k + 1, by simpa using hk, ?_⟩
      intro j hj
      cases j with
      | zero => simpa using hm
      | succ i => exact (by simpa using hbefore i (by omega))

theorem findPRNumber_leftmost (pre ds post : List Char)
    (hne : ds ≠ []) (hdig : ∀ c ∈ ds, c.isDigit = true)
    (hbefore : ∀ j < pre.length,
      prMatchAt ((pre ++ '(' :: '#' :: (ds ++ ')' :: post)).drop j) = none) :
    findPRNumber (pre ++ '(' :: '#' :: (ds ++ ')' :: post)) = some (digitsToNat ds) := by
  induction pre with
  | nil =>
    have hat : prMatchAt ('(' :: '#' :: (ds ++ ')' :: post)) = some (digitsToNat ds) :=
      (prMatchAt_some_iff _ _).mpr ⟨ds, post, rfl, hne, hdig, rfl⟩
    simp only [List.nil_append]
    unfold findPRNumber
    rw [hat]
  | cons p ps ih =>
    have h0 := hbefore 0 (by simp)
    simp only [List.drop_zero, List.cons_append] at h0
    have step : findPRNumber (p :: (ps ++ '(' :: '#' :: (ds ++ ')' :: post))) =
        findPRNumber (ps ++ '(' :: '#' :: (ds ++ ')' :: post)) := by
      conv_lhs => unfold findPRNumber
      rw [h0]
    rw [List.cons_append, step]
    refine ih (fun j hj => ?_)
    have := hbefore (j + 1) (by simp only [List.length_cons]; omega)
    simpa using this

/-! ### `ReplaceAllString` lemmas for the PR-trailer regex -/
theorem removeAllPR_cons_none (c : Char) (rest : List Char)
    (h : prMatchLen (c :: rest) = none) :
    removeAllPR (c :: rest) = c :: removeAllPR rest := by
  rw [removeAllPR_cons, h]

theorem removeAllPR_cons_some (c : Char) (rest : List Char) (k : Nat)
    (h : prMatchLen (c :: rest) = some k) :
    removeAllPR (c :: rest) = removeAllPR (rest.drop (k - 1)) := by
  rw [removeAllPR_cons, h]

/-- If the regex matches nowhere in `l`, `ReplaceAllString` leaves `l`
unchanged. -/
theorem removeAllPR_id (l : List Char)
    (h : ∀ n, prMatchCore (l.drop n) = none) :
    removeAllPR l = l := by
  induction l with
  | nil => rfl
  | cons c rest ih =>
    have h0 : prMatchLen (c :: rest) = none := by
      have := h 0
      simp only [List.drop_zero] at this
      simp [prMatchLen, this]
    rw [removeAllPR_cons_none c rest h0]
    rw [ih (fun n => by simpa using h (n + 1))]

/-- A match of `\(#(\d+)\)` cannot straddle the boundary between a
match-free nonempty block `t` and a following block that starts with
`(`. -/
theorem prMatchCore_append_paren (t u' : List Char) (htne : t ≠ [])
    (ht : prMatchCore t = none) :
    prMatchCore (t ++ '(' :: u') = none := by
  cases hmc : prMatchCore (t ++ '(' :: u') with
  | none => rfl
  | some ds =>
    exfalso
    obtain ⟨post, hdec, hne, hdig⟩ := (prMatchCore_some_iff _ _).mp hmc
    match t, htne with
    | c₁ :: t₁, _ =>
      simp only [List.cons_append] at hdec
      injection hdec with hc1 hdec
      subst hc1
      match t₁, hdec with
      | [], hdec =>
        simp only [List.nil_append] at hdec
        injection hdec with hc2 _
        exact absurd hc2 (by decide)
      | c₂ :: t₂, hdec =>
        simp only [List.cons_append] at hdec
        injection hdec with hc2 hdec
        subst hc2
        rcases List.append_eq_append_iff.mp hdec with ⟨e, hds, heq⟩ | ⟨e, ht2, heq⟩
        · cases e with
          | nil =>
            simp only [List.nil_append] at heq
            injection heq with hp _
            exact absurd hp (by decide)
          | cons e0 e' =>
            injection heq with hp _
            subst hp
            have : ('(' : Char) ∈ ds := by
              rw [hds]
              exact List.mem_append_right _ (by simp)
            have := hdig _ this
            exact absurd this (by decide)
        · cases e with
          | nil =>
            simp only [List.nil_append] at heq
            injection heq with hp _
            exact absurd hp (by decide)
          | cons e0 e'' =>
            injection heq with hp hpost
            subst hp
            have : prMatchCore ('(' :: '#' :: t₂) = some ds := by
              refine (prMatchCore_some_iff _ _).mpr ⟨e'', ?_, hne, hdig⟩
              rw [ht2]
            rw [this] at ht
            exact absurd ht (by simp)

/-- Model of `ReplaceAllString` deletes a trailing `(#<digits>)` marker and keeps a
preceding match-free block intact. -/
theorem removeAllPR_trailing_marker (a ds : List Char)
    (ha : ∀ n, prMatchCore (a.drop n) = none) (hne : ds ≠ [])
    (hdig : ∀ c ∈ ds, c.isDigit = true) :
    removeAllPR (a ++ '(' :: '#' :: (ds ++ [')'])) = a := by
  induction a with
  | nil =>
    have hcore : prMatchCore ('(' :: '#' :: (ds ++ [')'])) = some ds := by
      refine (prMatchCore_some_iff _ _).mpr ⟨[], rfl, hne, hdig⟩
    have hlen : prMatchLen ('(' :: '#' :: (ds ++ [')'])) = some (ds.length + 3) := by
      simp [prMatchLen, hcore]
    simp only [List.nil_append]
    rw [removeAllPR_cons_some _ _ _ hlen]
    have : ('#' :: (ds ++ [')'])).drop (ds.length + 3 - 1) = [] := by
      apply List.drop_eq_nil_of_le
      simp
    rw [this]
    rfl
  | cons x a' ih =>
    have h0 : prMatchCore (x :: a') = none := by
      have := ha 0
      simpa using this
    have hstraddle : prMatchCore ((x :: a') ++ '(' :: ('#' :: (ds ++ [')']))) = none :=
      prMatchCore_append_paren (x :: a') _ (by simp) h0
    have hlen : prMatchLen (x :: (a' ++ '(' :: '#' :: (ds ++ [')']))) = none := by
      simp only [List.cons_append] at hstraddle
      simp [prMatchLen, hstraddle]
    simp only [List.cons_append]
    rw [removeAllPR_cons_none _ _ hlen]
    rw [ih (fun n => by simpa using ha (n + 1))]

theorem findAllIssueNumbers_cons (c : Char) (rest : List Char) :
    findAllIssueNumbers (c :: rest) =
      match issueMatchAt (c :: rest) with
      | some q => q.1 :: findAllIssueNumbers (rest.drop (q.2 - 1))
      | none => findAllIssueNumbers rest := by
  show scanCollect issueMatchAt (rest.length + 1) (c :: rest) = _
  show (match issueMatchAt (c :: rest) with
    | some q => q.1 :: scanCollect issueMatchAt rest.length (rest.drop (q.2 - 1))
    | none => scanCollect issueMatchAt rest.length rest) = _
  cases hm : issueMatchAt (c :: rest) with
  | some q =>
    have hf := scanCollect_fuel_irrel issueMatchAt rest.length
      (rest.drop (q.2 - 1)).length (rest.drop (q.2 - 1))
      (by rw [List.length_drop]; omega) (le_refl _)
    show q.1 :: scanCollect issueMatchAt rest.length (rest.drop (q.2 - 1)) =
      q.1 :: findAllIssueNumbers (rest.drop (q.2 - 1))
    rw [hf]
    rfl
  | none => rfl

theorem findAllIssueNumbers_head (l : List Char) :
    (findAllIssueNumbers l).head? = findFirstIssue l := by
  induction l with
  | nil => rfl
  | cons c rest ih =>
    cases hm : issueMatchAt (c :: rest) with
    | some q =>
      have h1 : findAllIssueNumbers (c :: rest) =
          q.1 :: findAllIssueNumbers (rest.drop (q.2 - 1)) := by
        rw [findAllIssueNumbers_cons, hm]
      have h2 : findFirstIssue (c :: rest) = some q.1 := by
        conv_lhs => unfold findFirstIssue
        rw [hm]
      rw [h1, h2]; simp
    | none =>
      have h1 : findAllIssueNumbers (c :: rest) = findAllIssueNumbers rest := by
        rw [findAllIssueNumbers_cons, hm]
      have h2 : findFirstIssue (c :: rest) = findFirstIssue rest := by
        conv_lhs => unfold findFirstIssue
        rw [hm]
      rw [h1, h2, ih]

theorem findAllIssueNumbers_nil_iff (l : List Char) :
    findAllIssueNumbers l = [] ↔ findFirstIssue l = none := by
  rw [← findAllIssueNumbers_head]
  cases findAllIssueNumbers l <;> simp

theorem removeAllCiLitWs_cons (lit : List Char) (c : Char) (rest : List Char) :
    removeAllCiLitWs lit (c :: rest) =
      if ciWsMatchAt lit (c :: rest) then removeAllCiLitWs lit (rest.drop lit.length)
      else c :: removeAllCiLitWs lit rest := by
  show scanReplace _ (rest.length + 1) (c :: rest) = _
  show (match (if ciWsMatchAt lit (c :: rest) then some (lit.length + 1) else none :
      Option Nat) with
    | some k => scanReplace _ rest.length (rest.drop (k - 1))
    | none => c :: scanReplace _ rest.length rest) = _
  by_cases hm : ciWsMatchAt lit (c :: rest) = true
  · rw [if_pos hm, if_pos hm]
    show scanReplace _ rest.length (rest.drop (lit.length + 1 - 1)) = _
    have h1 : lit.length + 1 - 1 = lit.length := by omega
    rw [h1]
    exact scanReplace_fuel_irrel _ rest.length (rest.drop lit.length).length
      (rest.drop lit.length) (by rw [List.length_drop]; omega) (le_refl _)
  · rw [if_neg hm, if_neg hm]
    rfl

theorem stripStarChars_cons (c : Char) (rest : List Char) :
    stripStarChars (c :: rest) =
      if starWsAt (c :: rest) then stripStarChars (rest.drop 1)
      else c :: stripStarChars rest := by
  show scanReplace _ (rest.length + 1) (c :: rest) = _
  show (match (if starWsAt (c :: rest) then some 2 else none : Option Nat) with
    | some k => scanReplace _ rest.length (rest.drop (k - 1))
    | none => c :: scanReplace _ rest.length rest) = _
  by_cases hm : starWsAt (c :: rest) = true
  · rw [if_pos hm, if_pos hm]
    show scanReplace _ rest.length (rest.drop (2 - 1)) = _
    exact scanReplace_fuel_irrel _ rest.length (rest.drop 1).length
      (rest.drop 1) (by rw [List.length_drop]; omega) (le_refl _)
  · rw [if_neg hm, if_neg hm]
    rfl

theorem findNoteCap_some (step : List Char → Option (List Char))
    (l cap : List Char) (h : findNoteCap step l = some cap) :
    ∃ n, step (l.drop n) = some cap := by
  induction l with
  | nil => exact ⟨0, by simpa [findNoteCap] using h⟩
  | cons c rest ih =>
    simp only [findNoteCap] at h
    cases hm : step (c :: rest) with
    | some cap0 =>
      rw [hm] at h
      simp only [Option.some.injEq] at h
      exact ⟨0, by simpa [h] using hm⟩
    | none =>
      rw [hm] at h
      obtain ⟨n, hn⟩ := ih h
      exact ⟨n + 1, by simpa using hn⟩

theorem findNoteCap_isSome_iff (step : List Char → Option (List Char))
    (l : List Char) :
    (findNoteCap step l).isSome = true ↔ ∃ n, (step (l.drop n)).isSome = true := by
  induction l with
  | nil =>
    simp only [findNoteCap]
    exact ⟨fun h => ⟨0, by simpa using h⟩, fun ⟨n, h⟩ => by simpa using h⟩
  | cons c rest ih =>
    simp only [findNoteCap]
    cases hm : step (c :: rest) with
    | some cap0 =>
      simp only [Option.isSome_some, true_iff]
      exact ⟨0, by simp [hm]⟩
    | none =>
      simp only [ih]
      constructor
      · rintro ⟨n, hn⟩; exact ⟨n + 1, by simpa using hn⟩
      · rintro ⟨n, hn⟩
        cases n with
        | zero => simp only [List.drop_zero] at hn; rw [hm] at hn; simp at hn
        | succ m => exact ⟨m, by simpa using hn⟩

theorem noteCapAt_some (fence t cap : List Char)
    (h : noteCapAt fence t = some cap) :
    ∃ post, t = fence ++ cap ++ post ∧ cap ≠ [] ∧ ∀ c ∈ cap, c ≠ '\n' := by
  simp only [noteCapAt] at h
  split at h
  · rename_i hpfx
    split at h
    · exact absurd h (by simp)
    · rename_i hne
      simp only [Option.some.injEq] at h
      subst h
      obtain ⟨u, rfl⟩ := (pfxOf_iff fence t).mp hpfx
      have hdrop : (fence ++ u).drop fence.length = u := List.drop_left fence u
      rw [hdrop] at hne ⊢
      refine ⟨u.dropWhile (fun c => c ≠ '\n'), ?_, by simpa [List.isEmpty_iff] using hne, ?_⟩
      · rw [List.append_assoc, List.takeWhile_append_dropWhile]
      · intro c hc
        have := List.mem_takeWhile_imp hc
        simpa using this
  · exact absurd h (by simp)

theorem noteCapAt_isSome_iff (fence t : List Char) :
    (noteCapAt fence t).isSome = true ↔
      ∃ cap post, t = fence ++ cap ++ post ∧ cap ≠ [] ∧ ∀ c ∈ cap, c ≠ '\n' := by
  constructor
  · intro h
    obtain ⟨cap, hcap⟩ := Option.isSome_iff_exists.mp h
    obtain ⟨post, h1, h2, h3⟩ := noteCapAt_some fence t cap hcap
    exact ⟨cap, post, h1, h2, h3⟩
  · rintro ⟨cap, post, rfl, hne, hnn⟩
    have hpfx : pfxOf fence (fence ++ cap ++ post) = true := by
      rw [List.append_assoc]
      exact (pfxOf_iff _ _).mpr ⟨cap ++ post, rfl⟩
    have hdrop : (fence ++ cap ++ post).drop fence.length = cap ++ post := by
      rw [List.append_assoc]
      exact List.drop_left fence (cap ++ post)
    have hall : ∀ c ∈ cap, (fun c => decide (c ≠ '\n')) c = true := by
      intro c hc; simpa using hnn c hc
    have htw : (cap ++ post).takeWhile (fun c => c ≠ '\n') =
        cap ++ post.takeWhile (fun c => c ≠ '\n') :=
      takeWhile_app_of_all _ cap post hall
    simp only [noteCapAt, hpfx, if_true, hdrop, htw]
    cases cap with
    | nil => exact absurd rfl hne
    | cons a as => simp

theorem greedyClose_some (close tail : List Char) (k j : Nat)
    (h : greedyClose close tail k = some j) :
    1 ≤ j ∧ j ≤ k ∧ pfxOf close (tail.drop j) = true := by
  induction k with
  | zero => simp [greedyClose] at h
  | succ m ih =>
    simp only [greedyClose] at h
    split at h
    · rename_i hp
      simp only [Option.some.injEq] at h
      subst h
      exact ⟨by omega, le_refl _, hp⟩
    · obtain ⟨h1, h2, h3⟩ := ih h
      exact ⟨h1, by omega, h3⟩

theorem greedyClose_isSome (close tail : List Char) (k j : Nat)
    (h1 : 1 ≤ j) (h2 : j ≤ k) (h3 : pfxOf close (tail.drop j) = true) :
    (greedyClose close tail k).isSome = true := by
  induction k with
  | zero => omega
  | succ m ih =>
    simp only [greedyClose]
    split
    · simp
    · rename_i hp
      rcases Nat.lt_or_ge j (m + 1) with hlt | hge
      · exact ih (by omega)
      · have : j = m + 1 := by omega
        subst this
        exact absurd h3 (by simpa using hp)

theorem take_eq_takeWhile_take (p : Char → Bool) (l : List Char) (j : Nat)
    (hj : j ≤ (l.takeWhile p).length) :
    l.take j = (l.takeWhile p).take j := by
  induction l generalizing j with
  | nil => simp
  | cons a as ih =>
    by_cases hp : p a
    · simp only [List.takeWhile_cons, hp, if_true] at hj ⊢
      cases j with
      | zero => simp
      | succ m =>
        simp only [List.take_succ_cons]
        rw [ih m (by simpa using hj)]
    · simp only [List.takeWhile_cons, hp] at hj
      simp only [Bool.false_eq_true, if_false, List.length_nil] at hj
      have : j = 0 := by omega
      subst this
      simp

theorem fencedCapAt_some (fence close t cap : List Char)
    (h : fencedCapAt fence close t = some cap) :
    ∃ post, t = fence ++ cap ++ close ++ post ∧ cap ≠ [] ∧
      ∀ c ∈ cap, c ≠ '\n' := by
  simp only [fencedCapAt] at h
  split at h
  · rename_i hpfx
    obtain ⟨u, rfl⟩ := (pfxOf_iff fence t).mp hpfx
    rw [List.drop_left fence u] at h
    split at h
    · rename_i j hgc
      obtain ⟨h1, h2, h3⟩ := greedyClose_some _ _ _ _ hgc
      simp only [Option.some.injEq] at h
      subst h
      obtain ⟨post, hpost⟩ := (pfxOf_iff close (u.drop j)).mp h3
      refine ⟨post, ?_, ?_, ?_⟩
      · have : u = u.take j ++ u.drop j := (List.take_append_drop j u).symm
        conv_lhs => rw [this, hpost]
        simp [List.append_assoc]
      · have hrun : ((u.takeWhile (fun c => c ≠ '\n')).length ≤ u.length) :=
          List.Sublist.length_le (List.takeWhile_sublist _)
        have : (u.take j).length = j := by
          rw [List.length_take]
          omega
        intro hnil
        rw [hnil] at this
        simp at this
        omega
      · intro c hc
        rw [take_eq_takeWhile_take _ u j h2] at hc
        have hc' : c ∈ u.takeWhile (fun c => c ≠ '\n') :=
          List.mem_of_mem_take hc
        simpa using List.mem_takeWhile_imp hc'
    · exact absurd h (by simp)
  · exact absurd h (by simp)

theorem fencedCapAt_isSome_iff (fence close t : List Char) :
    (fencedCapAt fence close t).isSome = true ↔
      ∃ cap post, t = fence ++ cap ++ close ++ post ∧ cap ≠ [] ∧
        ∀ c ∈ cap, c ≠ '\n' := by
  constructor
  · intro h
    obtain ⟨cap, hcap⟩ := Option.isSome_iff_exists.mp h
    obtain ⟨post, h1, h2, h3⟩ := fencedCapAt_some fence close t cap hcap
    exact ⟨cap, post, h1, h2, h3⟩
  · rintro ⟨cap, post, rfl, hne, hnn⟩
    have hpfx : pfxOf fence (fence ++ cap ++ close ++ post) = true := by
      simp only [List.append_assoc]
      exact (pfxOf_iff _ _).mpr ⟨cap ++ (close ++ post), rfl⟩
    have hdrop : (fence ++ cap ++ close ++ post).drop fence.length =
        cap ++ close ++ post := by
      simp only [List.append_assoc]
      rw [List.drop_left fence (cap ++ (close ++ post))]
    have hall : ∀ c ∈ cap, (fun c => decide (c ≠ '\n')) c = true := by
      intro c hc; simpa using hnn c hc
    have htw : (cap ++ close ++ post).takeWhile (fun c => c ≠ '\n') =
        cap ++ (close ++ post).takeWhile (fun c => c ≠ '\n') := by
      rw [List.append_assoc]
      exact takeWhile_app_of_all _ cap (close ++ post) hall
    have hj2 : cap.length ≤
        ((cap ++ close ++ post).takeWhile (fun c => c ≠ '\n')).length := by
      rw [htw]; simp
    have hj3 : pfxOf close ((cap ++ close ++ post).drop cap.length) = true := by
      rw [List.append_assoc, List.drop_left cap (close ++ post)]
      exact (pfxOf_iff _ _).mpr ⟨post, rfl⟩
    have hj1 : 1 ≤ cap.length := by
      cases cap with
      | nil => exact absurd rfl hne
      | cons a as => simp
    have hg := greedyClose_isSome close (cap ++ close ++ post) _ cap.length hj1 hj2 hj3
    simp only [fencedCapAt, hpfx, if_true, hdrop]
    cases hgc : greedyClose close (cap ++ close ++ post)
        ((cap ++ close ++ post).takeWhile (fun c => c ≠ '\n')).length with
    | some j => simp
    | none => rw [hgc] at hg; simp at hg

theorem openFenceMatch_iff (fence l : List Char) :
    (findNoteCap (noteCapAt fence) l).isSome = true ↔ OpenFenceMatch fence l := by
  rw [findNoteCap_isSome_iff]
  constructor
  · rintro ⟨n, hn⟩
    obtain ⟨cap, post, hdec, hne, hnn⟩ := (noteCapAt_isSome_iff fence (l.drop n)).mp hn
    refine ⟨l.take n, cap, post, ?_, hne, hnn⟩
    simp only [List.append_assoc] at hdec ⊢
    rw [← hdec, List.take_append_drop]
  · rintro ⟨pre, cap, post, rfl, hne, hnn⟩
    refine ⟨pre.length, ?_⟩
    have hdrop : (pre ++ fence ++ cap ++ post).drop pre.length =
        fence ++ cap ++ post := by
      simp only [List.append_assoc]
      exact List.drop_left pre (fence ++ (cap ++ post))
    rw [hdrop]
    exact (noteCapAt_isSome_iff fence _).mpr ⟨cap, post, rfl, hne, hnn⟩

theorem closedFenceMatch_iff (fence close l : List Char) :
    (findNoteCap (fencedCapAt fence close) l).isSome = true ↔
      ClosedFenceMatch fence close l := by
  rw [findNoteCap_isSome_iff]
  constructor
  · rintro ⟨n, hn⟩
    obtain ⟨cap, post, hdec, hne, hnn⟩ :=
      (fencedCapAt_isSome_iff fence close (l.drop n)).mp hn
    refine ⟨l.take n, cap, post, ?_, hne, hnn⟩
    simp only [List.append_assoc] at hdec ⊢
    rw [← hdec, List.take_append_drop]
  · rintro ⟨pre, cap, post, rfl, hne, hnn⟩
    refine ⟨pre.length, ?_⟩
    have hdrop : (pre ++ fence ++ cap ++ close ++ post).drop pre.length =
        fence ++ cap ++ close ++ post := by
      simp only [List.append_assoc]
      exact List.drop_left pre (fence ++ (cap ++ (close ++ post)))
    rw [hdrop]
    exact (fencedCapAt_isSome_iff fence close _).mpr ⟨cap, post, rfl, hne, hnn⟩

theorem noteCapture_isSome_iff (l : List Char) :
    (noteCapture l).isSome = true ↔ AnyFenceMatch l := by
  unfold noteCapture AnyFenceMatch
  cases h1 : findNoteCap (noteCapAt ("```release-note\r\n").data) l with
  | some cap =>
    simp only [Option.isSome_some, true_iff]
    exact Or.inl ((openFenceMatch_iff _ l).mp (by simp [h1]))
  | none =>
    have hn1 : ¬ OpenFenceMatch ("```release-note\r\n").data l := by
      rw [← openFenceMatch_iff]
      simp [h1]
    cases h2 : findNoteCap (noteCapAt ("```dev-release-note\r\n").data) l with
    | some cap =>
      simp only [Option.isSome_some, true_iff]
      exact Or.inr (Or.inl ((openFenceMatch_iff _ l).mp (by simp [h2])))
    | none =>
      have hn2 : ¬ OpenFenceMatch ("```dev-release-note\r\n").data l := by
        rw [← openFenceMatch_iff]
        simp [h2]
      cases h3 : findNoteCap (fencedCapAt ("```\r\n").data ("\r\n```").data) l with
      | some cap =>
        simp only [Option.isSome_some, true_iff]
        exact Or.inr (Or.inr (Or.inl ((closedFenceMatch_iff _ _ l).mp (by simp [h3]))))
      | none =>
        have hn3 : ¬ ClosedFenceMatch ("```\r\n").data ("\r\n```").data l := by
          rw [← closedFenceMatch_iff]
          simp [h3]
        rw [closedFenceMatch_iff]
        constructor
        · intro h4
          exact Or.inr (Or.inr (Or.inr h4))
        · rintro (h | h | h | h)
          · exact absurd h hn1
          · exact absurd h hn2
          · exact absurd h hn3
          · exact h

theorem noteCapture_some_decomp (l cap : List Char)
    (h : noteCapture l = some cap) :
    cap ≠ [] ∧ ∀ c ∈ cap, c ≠ '\n' := by
  unfold noteCapture at h
  cases h1 : findNoteCap (noteCapAt ("```release-note\r\n").data) l with
  | some cap0 =>
    rw [h1] at h
    simp only [Option.some.injEq] at h
    subst h
    obtain ⟨n, hn⟩ := findNoteCap_some _ _ _ h1
    obtain ⟨post, _, hne, hnn⟩ := noteCapAt_some _ _ _ hn
    exact ⟨hne, hnn⟩
  | none =>
    rw [h1] at h
    cases h2 : findNoteCap (noteCapAt ("```dev-release-note\r\n").data) l with
    | some cap0 =>
      rw [h2] at h
      simp only [Option.some.injEq] at h
      subst h
      obtain ⟨n, hn⟩ := findNoteCap_some _ _ _ h2
      obtain ⟨post, _, hne, hnn⟩ := noteCapAt_some _ _ _ hn
      exact ⟨hne, hnn⟩
    | none =>
      rw [h2] at h
      cases h3 : findNoteCap (fencedCapAt ("```\r\n").data ("\r\n```").data) l with
      | some cap0 =>
        rw [h3] at h
        simp only [Option.some.injEq] at h
        subst h
        obtain ⟨n, hn⟩ := findNoteCap_some _ _ _ h3
        obtain ⟨post, _, hne, hnn⟩ := fencedCapAt_some _ _ _ _ hn
        exact ⟨hne, hnn⟩
      | none =>
        rw [h3] at h
        obtain ⟨n, hn⟩ := findNoteCap_some _ _ _ h
        obtain ⟨post, _, hne, hnn⟩ := fencedCapAt_some _ _ _ _ hn
        exact ⟨hne, hnn⟩

theorem noteTextFromString_ok (s : String) (t : String)
    (h : noteTextFromString s = .ok t) :
    ∃ cap, noteCapture s.data = some cap ∧
      t = String.mk (stripStarChars (stripActionRequiredChars (trimRightCR cap))) := by
  unfold noteTextFromString at h
  cases hc : noteCapture s.data with
  | some cap =>
    rw [hc] at h
    simp only [Except.ok.injEq] at h
    exact ⟨cap, rfl, h.symm⟩
  | none => rw [hc] at h; exact absurd h (by simp)

theorem noteTextFromString_error_iff (s : String) :
    noteTextFromString s =
      .error (.msg "no matches found when parsing note text from commit string") ↔
    noteCapture s.data = none := by
  unfold noteTextFromString
  cases hc : noteCapture s.data with
  | some cap => simp
  | none => simp

/-! ### The `ListReleaseNotes` loop is a filter followed by a dedupe -/
theorem dedupeByText_nil (seen : List String) : dedupeByText seen [] = [] := rfl

theorem dedupeByText_cons (seen : List String) (n : ReleaseNote) (ns : List ReleaseNote) :
    dedupeByText seen (n :: ns) =
      if seen.contains n.text then dedupeByText seen ns
      else n :: dedupeByText (n.text :: seen) ns := rfl

theorem listReleaseNotesLoop_eq (env : Env) (cs : List Commit) (seen : List String) :
    listReleaseNotesLoop env cs seen = dedupeByText seen (noteCandidates env cs) := by
  induction cs generalizing seen with
  | nil => simp [listReleaseNotesLoop, noteCandidates, dedupeByText_nil]
  | cons c rest ih =>
    by_cases hbot : c.authorLogin = "netdatabot"
    · have h1 : listReleaseNotesLoop env (c :: rest) seen =
          listReleaseNotesLoop env rest seen := by
        simp [listReleaseNotesLoop, hbot]
      have h2 : noteCandidates env (c :: rest) = noteCandidates env rest := by
        simp [noteCandidates, List.filterMap_cons, hbot]
      rw [h1, h2, ih]
    · cases hr : releaseNoteFromCommit env c with
      | error e =>
        have h1 : listReleaseNotesLoop env (c :: rest) seen =
            listReleaseNotesLoop env rest seen := by
          simp [listReleaseNotesLoop, hbot, hr]
        have h2 : noteCandidates env (c :: rest) = noteCandidates env rest := by
          simp [noteCandidates, List.filterMap_cons, hbot, hr]
        rw [h1, h2, ih]
      | ok note =>
        by_cases hnone : String.mk (goTrimSpace note.text.data) = "NONE"
        · have h1 : listReleaseNotesLoop env (c :: rest) seen =
              listReleaseNotesLoop env rest seen := by
            simp [listReleaseNotesLoop, hbot, hr, hnone]
          have h2 : noteCandidates env (c :: rest) = noteCandidates env rest := by
            simp [noteCandidates, List.filterMap_cons, hbot, hr, hnone]
          rw [h1, h2, ih]
        · have h2 : noteCandidates env (c :: rest) = note :: noteCandidates env rest := by
            simp [noteCandidates, List.filterMap_cons, hbot, hr, hnone]
          rw [h2, dedupeByText_cons]
          by_cases hseen : seen.contains note.text = true
          · have hmem : note.text ∈ seen := by simpa using hseen
            have h1 : listReleaseNotesLoop env (c :: rest) seen =
                listReleaseNotesLoop env rest seen := by
              simp [listReleaseNotesLoop, hbot, hr, hnone, hmem]
            rw [h1, if_pos hseen, ih]
          · have hmem : note.text ∉ seen := by simpa using hseen
            have h1 : listReleaseNotesLoop env (c :: rest) seen =
                note :: listReleaseNotesLoop env rest (note.text :: seen) := by
              simp [listReleaseNotesLoop, hbot, hr, hnone, hmem]
            rw [h1, if_neg hseen, ih]

theorem dedupeByText_sublist (seen : List String) (ns : List ReleaseNote) :
    (dedupeByText seen ns).Sublist ns := by
  induction ns generalizing seen with
  | nil => rw [dedupeByText_nil]
  | cons n rest ih =>
    rw [dedupeByText_cons]
    by_cases hseen : seen.contains n.text = true
    · rw [if_pos hseen]
      exact (ih seen).trans (List.sublist_cons_self n rest)
    · rw [if_neg hseen]
      exact List.Sublist.cons₂ n (ih (n.text :: seen))

theorem mem_dedupeByText (seen : List String) (ns : List ReleaseNote)
    (n : ReleaseNote) (h : n ∈ dedupeByText seen ns) : n ∈ ns :=
  (dedupeByText_sublist seen ns).mem h

theorem dedupeByText_nodup_aux (seen : List String) (ns : List ReleaseNote) :
    ((dedupeByText seen ns).map (fun n => n.text)).Nodup ∧
    ∀ n ∈ dedupeByText seen ns, seen.contains n.text = false := by
  induction ns generalizing seen with
  | nil => simp [dedupeByText_nil]
  | cons n rest ih =>
    rw [dedupeByText_cons]
    by_cases hseen : seen.contains n.text = true
    · rw [if_pos hseen]
      exact ih seen
    · rw [if_neg hseen]
      obtain ⟨hnodup, hdisj⟩ := ih (n.text :: seen)
      refine ⟨?_, ?_⟩
      · simp only [List.map_cons, List.nodup_cons]
        refine ⟨?_, hnodup⟩
        intro hmem
        obtain ⟨m, hm, hmt⟩ := List.mem_map.mp hmem
        have hmf := hdisj m hm
        rw [List.contains_cons] at hmf
        simp only [Bool.or_eq_false_iff] at hmf
        have h1 : ¬ m.text = n.text := by simpa using hmf.1
        exact h1 hmt
      · intro m hm
        rcases List.mem_cons.mp hm with rfl | hm'
        · simpa using hseen
        · have hmf := hdisj m hm'
          rw [List.contains_cons] at hmf
          simp only [Bool.or_eq_false_iff] at hmf
          exact hmf.2

theorem strMk_data (x : String) : String.mk x.data = x := rfl

theorem mem_noteCandidates (env : Env) (cs : List Commit) (n : ReleaseNote) :
    n ∈ noteCandidates env cs ↔
      ∃ c, c ∈ cs ∧ ¬ c.authorLogin = "netdatabot" ∧
        releaseNoteFromCommit env c = .ok n ∧
        ¬ String.mk (goTrimSpace n.text.data) = "NONE" := by
  unfold noteCandidates
  rw [List.mem_filterMap]
  constructor
  · rintro ⟨c, hc, hf⟩
    split at hf
    · exact absurd hf (by simp)
    · rename_i hbot
      split at hf
      · exact absurd hf (by simp)
      · rename_i note hr
        split at hf
        · exact absurd hf (by simp)
        · rename_i hnone
          simp only [Option.some.injEq] at hf
          subst hf
          exact ⟨c, hc, hbot, hr, hnone⟩
  · rintro ⟨c, hc, hbot, hr, hnone⟩
    refine ⟨c, hc, ?_⟩
    rw [if_neg hbot, hr]
    simp [hnone]

/-! ### Label-helper lemmas -/
theorem hasString_iff_mem (a : List String) (x : String) :
    hasString a x = true ↔ x ∈ a := by
  simp only [hasString, List.any_eq_true, decide_eq_true_eq]
  constructor
  · rintro ⟨n, hn, rfl⟩
    exact hn
  · intro hx
    exact ⟨x, hx, rfl⟩

theorem mem_stringsWithPfx (xs : List String) (p x : String) :
    x ∈ stringsWithPfx xs p ↔ ∃ y, y ∈ xs ∧ y.data = p.data ++ x.data := by
  unfold stringsWithPfx
  rw [List.mem_filterMap]
  constructor
  · rintro ⟨y, hy, hf⟩
    split at hf
    · rename_i hpfx
      simp only [Option.some.injEq] at hf
      obtain ⟨t, ht⟩ := (pfxOf_iff p.data y.data).mp hpfx
      have hx : x.data = y.data.drop p.data.length := by
        rw [← hf]
      refine ⟨y, hy, ?_⟩
      rw [ht] at hx ⊢
      rw [List.drop_left] at hx
      rw [hx]
    · exact absurd hf (by simp)
  · rintro ⟨y, hy, hdec⟩
    refine ⟨y, hy, ?_⟩
    have hpfx : pfxOf p.data y.data = true := (pfxOf_iff _ _).mpr ⟨x.data, hdec⟩
    rw [if_pos hpfx, hdec, List.drop_left]

theorem filter_map_const {α β : Type} (l : List α) (p : α → Bool) (c : β) :
    (l.filter p).map (fun _ => c) = List.replicate (l.countP p) c := by
  induction l with
  | nil => simp
  | cons a as ih =>
    by_cases h : p a = true
    · simp [List.filter_cons, List.countP_cons, h, ih, List.replicate_succ]
    · simp [List.filter_cons, List.countP_cons, h, ih]

theorem strLength_data (p : String) : p.data.length = p.length := rfl

theorem stringsWithPfx_length (xs : List String) (p : String) :
    (stringsWithPfx xs p).length = xs.countP (fun y => pfxOf p.data y.data) := by
  induction xs with
  | nil => simp [stringsWithPfx]
  | cons y ys ih =>
    simp only [stringsWithPfx, List.filterMap_cons, List.countP_cons] at ih ⊢
    by_cases h : pfxOf p.data y.data = true
    · rw [if_pos h]
      simp only [List.length_cons, strLength_data] at ih ⊢
      simp [ih, h]
    · rw [if_neg h]
      simp only [strLength_data] at ih ⊢
      simp only [Bool.not_eq_true] at h
      simp [ih, h]

/-! ### Filter-step lemmas for `ListCommitsWithNotes` -/
theorem excludedBody_nil : excludedBody [] = false := by
  unfold excludedBody exclusionFilters
  rfl

theorem includeContribution_nil (c : Commit) : includeContribution [] c = [c] := rfl

theorem includeContribution_eq_replicate (body : List Char) (c : Commit) :
    includeContribution body c =
      List.replicate (inclusionFilters.countP (fun p => ipatMatch p body)) c :=
  filter_map_const inclusionFilters (fun p => ipatMatch p body) c

theorem one_le_inclusionCount (body : List Char) :
    1 ≤ inclusionFilters.countP (fun p => ipatMatch p body) := by
  simp [inclusionFilters, List.countP_cons, ipatMatch]

theorem inclusionCount_le_three (body : List Char) :
    inclusionFilters.countP (fun p => ipatMatch p body) ≤ 3 := by
  have := List.countP_le_length (l := inclusionFilters)
    (p := fun p => ipatMatch p body)
  simpa [inclusionFilters] using this

theorem notesFilterStep_noParse (env : Env) (c : Commit)
    (h : findPRNumber c.message.data = none) : notesFilterStep env c = [] := by
  unfold notesFilterStep prFromCommit
  rw [h]
  simp

theorem prFromCommit_remoteErr (env : Env) (c : Commit) (n : Nat) (re : RemoteErr)
    (hn : findPRNumber c.message.data = some n) (hre : env.getPR n = .error re) :
    prFromCommit env c = .error (.remote re) := by
  unfold prFromCommit
  rw [hn]
  show (match env.getPR n with
    | Except.error re => Except.error (GoErr.remote re)
    | Except.ok pr => Except.ok pr) = _
  rw [hre]

theorem notesFilterStep_remoteErr (env : Env) (c : Commit) (n : Nat) (re : RemoteErr)
    (hn : findPRNumber c.message.data = some n) (hre : env.getPR n = .error re) :
    notesFilterStep env c = [c] := by
  unfold notesFilterStep
  rw [prFromCommit_remoteErr env c n re hn hre]
  simp [excludedBody_nil, includeContribution_nil]

theorem notesFilterStep_ok (env : Env) (c : Commit) (pr : PullRequest)
    (h : prFromCommit env c = .ok pr) :
    notesFilterStep env c =
      if excludedBody pr.body.data then []
      else includeContribution pr.body.data c := by
  unfold notesFilterStep
  rw [h]

theorem excludedBody_none_stanza (pre post : List Char) :
    excludedBody (pre ++ ("```release-note\r\nNONE").data ++ post) = true := by
  unfold excludedBody exclusionFilters
  simp only [List.any_cons, xpatMatch, Bool.or_eq_true]
  exact Or.inl ((containsSub_iff _ _).mpr ⟨pre, post, rfl⟩)

theorem listCommitsWithNotes_ok (env : Env) (startSha endSha : String)
    (out : List Commit) (h : listCommitsWithNotes env startSha endSha = .ok out) :
    ∃ cs, listCommits env startSha endSha = .ok cs ∧
      out = cs.flatMap (notesFilterStep env) := by
  unfold listCommitsWithNotes at h
  cases hl : listCommits env startSha endSha with
  | error e => rw [hl] at h; exact absurd h (by simp)
  | ok cs =>
    rw [hl] at h
    simp only [Except.ok.injEq] at h
    exact ⟨cs, rfl, h.symm⟩

/-! ### Error-propagation lemmas -/
theorem listCommits_startErr (env : Env) (startSha endSha : String) (err : RemoteErr)
    (h : env.getCommit startSha = .error err) :
    listCommits env startSha endSha = .error err := by
  unfold listCommits
  rw [h]

theorem listCommits_endErr (env : Env) (startSha endSha : String) (c0 : Commit)
    (err : RemoteErr) (hs : env.getCommit startSha = .ok c0)
    (h : env.getCommit endSha = .error err) :
    listCommits env startSha endSha = .error err := by
  unfold listCommits
  rw [hs]
  show (match env.getCommit endSha with
    | Except.error e => Except.error e
    | Except.ok _ =>
      match env.listPage 1 with
      | Except.error e => Except.error e
      | Except.ok (cs, last) =>
        fetchRemainingPages env (List.range' 2 (last - 1)) cs) = _
  rw [h]

theorem listCommits_pageErr (env : Env) (startSha endSha : String) (c0 c1 : Commit)
    (err : RemoteErr) (hs : env.getCommit startSha = .ok c0)
    (he : env.getCommit endSha = .ok c1) (hp : env.listPage 1 = .error err) :
    listCommits env startSha endSha = .error err := by
  unfold listCommits
  rw [hs]
  show (match env.getCommit endSha with
    | Except.error e => Except.error e
    | Except.ok _ =>
      match env.listPage 1 with
      | Except.error e => Except.error e
      | Except.ok (cs, last) =>
        fetchRemainingPages env (List.range' 2 (last - 1)) cs) = _
  rw [he]
  show (match env.listPage 1 with
    | Except.error e => Except.error e
    | Except.ok (cs, last) =>
      fetchRemainingPages env (List.range' 2 (last - 1)) cs) = _
  rw [hp]

theorem listCommitsWithNotes_err (env : Env) (startSha endSha : String)
    (err : RemoteErr) (h : listCommits env startSha endSha = .error err) :
    listCommitsWithNotes env startSha endSha = .error err := by
  unfold listCommitsWithNotes
  rw [h]

theorem listReleaseNotes_err (env : Env) (startSha endSha : String)
    (err : RemoteErr) (h : listCommits env startSha endSha = .error err) :
    listReleaseNotes env startSha endSha = .error err := by
  unfold listReleaseNotes
  rw [listCommitsWithNotes_err env startSha endSha err h]

theorem listCommitsWithNotes_flatMap (env : Env) (startSha endSha : String)
    (cs : List Commit) (h : listCommits env startSha endSha = .ok cs) :
    listCommitsWithNotes env startSha endSha =
      .ok (cs.flatMap (notesFilterStep env)) := by
  unfold listCommitsWithNotes
  rw [h]

theorem listReleaseNotes_ok (env : Env) (startSha endSha : String)
    (cs : List Commit) (h : listCommitsWithNotes env startSha endSha = .ok cs) :
    listReleaseNotes env startSha endSha =
      .ok (listReleaseNotesLoop env cs []) := by
  unfold listReleaseNotes
  rw [h]

/-! ### Composition lemmas for `ReleaseNoteFromCommit` -/
theorem releaseNoteFromCommit_prErr (env : Env) (c : Commit) (e : GoErr)
    (h : prFromCommit env c = .error e) :
    releaseNoteFromCommit env c = .error e := by
  unfold releaseNoteFromCommit
  rw [h]

theorem releaseNoteFromCommit_issueErr (env : Env) (c : Commit) (pr : PullRequest)
    (e : GoErr) (hpr : prFromCommit env c = .ok pr)
    (hiss : resolveIssue env c = .error e) :
    releaseNoteFromCommit env c = .error e := by
  unfold releaseNoteFromCommit
  rw [hpr]
  show (match resolveIssue env c with
    | Except.error e => Except.error e
    | Except.ok iss => Except.ok (buildNote c pr iss)) = _
  rw [hiss]

theorem releaseNoteFromCommit_ok (env : Env) (c : Commit) (pr : PullRequest)
    (iss : Option Issue) (hpr : prFromCommit env c = .ok pr)
    (hiss : resolveIssue env c = .ok iss) :
    releaseNoteFromCommit env c = .ok (buildNote c pr iss) := by
  unfold releaseNoteFromCommit
  rw [hpr]
  show (match resolveIssue env c with
    | Except.error e => Except.error e
    | Except.ok iss => Except.ok (buildNote c pr iss)) = _
  rw [hiss]

theorem resolveIssue_remoteErr (env : Env) (c : Commit) (n : Nat) (tl : List Nat)
    (re : RemoteErr) (h1 : findAllIssueNumbers c.message.data = n :: tl)
    (h2 : env.getIssue n = .error re) :
    resolveIssue env c = .error (.remote re) := by
  unfold resolveIssue issueNumbersFromCommit
  rw [h1]
  show (match env.getIssue n with
    | Except.error re => Except.error (GoErr.remote re)
    | Except.ok i => Except.ok (some i)) = _
  rw [h2]

theorem listReleaseNotesLoop_skip (env : Env) (c : Commit) (cs : List Commit)
    (seen : List String) (e : GoErr)
    (he : releaseNoteFromCommit env c = .error e) :
    listReleaseNotesLoop env (c :: cs) seen = listReleaseNotesLoop env cs seen := by
  by_cases hbot : c.authorLogin = "netdatabot"
  · simp [listReleaseNotesLoop, hbot]
  · simp [listReleaseNotesLoop, hbot, he]

/-! ### `buildNote` field projections and classification lemmas -/
theorem buildNote_feature (c : Commit) (pr : PullRequest) (iss : Option Issue) :
    (buildNote c pr iss).feature = featureOf pr iss := rfl

theorem buildNote_actionRequired (c : Commit) (pr : PullRequest) (iss : Option Issue) :
    (buildNote c pr iss).actionRequired = isActionRequired pr := rfl

theorem buildNote_duplicate (c : Commit) (pr : PullRequest) (iss : Option Issue) :
    (buildNote c pr iss).duplicate = (dupAndSuffixOf pr iss).1 := rfl

theorem buildNote_text (c : Commit) (pr : PullRequest) (iss : Option Issue) :
    (buildNote c pr iss).text =
      String.mk (goTrimSpace (removeAllPR (firstLineChars c.message.data))) := rfl

theorem dupAndSuffix_fst_iff (pr : PullRequest) (iss : Option Issue) :
    (dupAndSuffixOf pr iss).1 = true ↔
      isActionRequired pr = false ∧ featureOf pr iss = false ∧
      1 < (stringsWithPfx pr.labels "sig/").length := by
  unfold dupAndSuffixOf
  by_cases h : (isActionRequired pr || featureOf pr iss) = true
  · rw [if_pos h]
    simp only [Bool.or_eq_true] at h
    constructor
    · intro hf
      exact absurd hf (by simp)
    · rintro ⟨har, hfeat, _⟩
      rcases h with h | h
      · rw [har] at h
        exact absurd h (by simp)
      · rw [hfeat] at h
        exact absurd h (by simp)
  · rw [if_neg h]
    simp only [Bool.or_eq_true, not_or, Bool.not_eq_true] at h
    obtain ⟨har, hfeat⟩ := h
    by_cases hl : (stringsWithPfx pr.labels "sig/").length > 1
    · rw [if_pos hl]
      simp [har, hfeat, hl]
    · rw [if_neg hl]
      constructor
      · intro hf
        exact absurd hf (by simp)
      · rintro ⟨_, _, hlt⟩
        exact absurd hlt hl

theorem kindFeature_mem (labels : List String) :
    hasString (stringsWithPfx labels "kind/") "feature" = true ↔
      "kind/feature" ∈ labels := by
  rw [hasString_iff_mem, mem_stringsWithPfx]
  constructor
  · rintro ⟨y, hy, hdata⟩
    have hy2 : y = "kind/feature" := by
      have h2 : y.data = ("kind/feature" : String).data := by rw [hdata]; rfl
      have h3 := congrArg String.mk h2
      simpa [strMk_data] using h3
    rwa [← hy2]
  · intro h
    exact ⟨"kind/feature", h, rfl⟩

theorem featureOf_iff (pr : PullRequest) (iss : Option Issue) :
    featureOf pr iss = true ↔
      ("kind/feature" ∈ pr.labels ∨ ∃ i, iss = some i ∧ "bug" ∉ i.labels) := by
  unfold featureOf
  by_cases hk : hasString (stringsWithPfx pr.labels "kind/") "feature" = true
  · rw [if_pos hk]
    simp only [true_iff]
    exact Or.inl ((kindFeature_mem pr.labels).mp hk)
  · rw [if_neg hk]
    have hk2 : "kind/feature" ∉ pr.labels := fun h => hk ((kindFeature_mem _).mpr h)
    cases iss with
    | none => simp [hk2]
    | some i =>
      show (! hasString i.labels "bug") = true ↔ _
      constructor
      · intro h
        refine Or.inr ⟨i, rfl, fun hb => ?_⟩
        rw [(hasString_iff_mem _ _).mpr hb] at h
        simp at h
      · rintro (h | ⟨j, hj, hb⟩)
        · exact absurd h hk2
        · injection hj with hj
          subst hj
          cases hbs : hasString i.labels "bug" with
          | false => simp [hbs]
          | true => exact absurd ((hasString_iff_mem _ _).mp hbs) hb

theorem prFromCommit_noParse (env : Env) (c : Commit)
    (h : findPRNumber c.message.data = none) :
    prFromCommit env c =
      .error (.msg "no matches found when parsing PR from commit") := by
  unfold prFromCommit
  rw [h]

theorem removeAllCiLitWs_id (lit l : List Char)
    (h : ∀ n, ciWsMatchAt lit (l.drop n) = false) :
    removeAllCiLitWs lit l = l := by
  induction l with
  | nil => rfl
  | cons c rest ih =>
    have h0 := h 0
    simp only [List.drop_zero] at h0
    have step : removeAllCiLitWs lit (c :: rest) = c :: removeAllCiLitWs lit rest := by
      rw [removeAllCiLitWs_cons, if_neg (by simp [h0])]
    rw [step, ih (fun n => by simpa using h (n + 1))]

theorem stripStarChars_id (l : List Char)
    (h : ∀ n, starWsAt (l.drop n) = false) :
    stripStarChars l = l := by
  induction l with
  | nil => rfl
  | cons c rest ih =>
    have h0 := h 0
    simp only [List.drop_zero] at h0
    have step : stripStarChars (c :: rest) = c :: stripStarChars rest := by
      rw [stripStarChars_cons, if_neg (by simp [h0])]
    rw [step, ih (fun n => by simpa using h (n + 1))]

theorem prMatchCore_none_forall (a : List Char)
    (h : ∀ n, n < a.length → prMatchCore (a.drop n) = none) :
    ∀ n, prMatchCore (a.drop n) = none := by
  intro n
  rcases Nat.lt_or_ge n a.length with hlt | hge
  · exact h n hlt
  · rw [List.drop_eq_nil_of_le hge]
    rfl

/-! ## Claim theorems -/
/-- C1 (amended): for a commit whose PR resolves, a body matching any
exclusion filter drops the commit, and a body matching none retains it —
but the source appends the commit once PER matching inclusion filter
(between one and three consecutive copies, at least one because `.*`
always matches), so a retained commit is NOT always listed exactly once.
The output is the in-order concatenation of these per-commit
contributions; a body containing a `release-note` stanza whose first
content line is `NONE` (CRLF form) is always excluded. -/
theorem listCommitsWithNotes_retention (env : Env) (startSha endSha : String) :
    (∀ out, listCommitsWithNotes env startSha endSha = .ok out →
      ∃ cs, listCommits env startSha endSha = .ok cs ∧
        out = cs.flatMap (notesFilterStep env)) ∧
    (∀ c pr, prFromCommit env c = .ok pr → excludedBody pr.body.data = true →
      notesFilterStep env c = []) ∧
    (∀ c pr, prFromCommit env c = .ok pr → excludedBody pr.body.data = false →
      notesFilterStep env c =
        List.replicate (inclusionFilters.countP (fun q => ipatMatch q pr.body.data)) c ∧
      1 ≤ inclusionFilters.countP (fun q => ipatMatch q pr.body.data) ∧
      inclusionFilters.countP (fun q => ipatMatch q pr.body.data) ≤ 3) ∧
    (∀ pre post, excludedBody (pre ++ ("```release-note\r\nNONE").data ++ post) = true) := by
  refine ⟨?_, ?_, ?_, excludedBody_none_stanza⟩
  · intro out h
    exact listCommitsWithNotes_ok env startSha endSha out h
  · intro c pr hpr hex
    rw [notesFilterStep_ok env c pr hpr, if_pos hex]
  · intro c pr hpr hex
    rw [notesFilterStep_ok env c pr hpr, if_neg (by simp [hex])]
    exact ⟨includeContribution_eq_replicate _ _, one_le_inclusionCount _,
      inclusionCount_le_three _⟩

/-- C1 counterexample: a resolvable, non-excluded commit whose PR body
contains the literal `release-note` matches two inclusion filters and is
returned TWICE, refuting "each retained commit exactly once". -/
theorem listCommitsWithNotes_retained_twice :
    listCommitsWithNotes happyEnv "s" "e" = .ok [happyCommit, happyCommit] ∧
    [happyCommit, happyCommit].count happyCommit = 2 := by
  constructor
  · decide
  · decide

/-- C1 witness. -/
theorem listCommitsWithNotes_retention_witness :
    notesFilterStep happyEnv happyCommit =
      List.replicate
        (inclusionFilters.countP (fun q => ipatMatch q happyPR.body.data))
        happyCommit ∧
    1 ≤ inclusionFilters.countP (fun q => ipatMatch q happyPR.body.data) ∧
    inclusionFilters.countP (fun q => ipatMatch q happyPR.body.data) ≤ 3 :=
  (listCommitsWithNotes_retention happyEnv "s" "e").2.2.1 happyCommit happyPR
    (by decide) (by decide)

/-- C2 (amended): `PRFromCommit` extraction scans the FULL commit
message, not only its first line.  It succeeds exactly when a literal
`(#<digits>)` occurs anywhere in the message; it returns the leftmost
occurrence's number; and on no match it fails with the exact
no-PR-found error message, which both call sites treat as
skip-this-commit (not fatal). -/
theorem prFromCommit_whole_message (msg : String) :
    ((∃ n, findPRNumber msg.data = some n) ↔
      ∃ pre ds post, msg.data = pre ++ '(' :: '#' :: (ds ++ ')' :: post) ∧
        ds ≠ [] ∧ ∀ ch ∈ ds, ch.isDigit = true) ∧
    (∀ pre ds post, msg.data = pre ++ '(' :: '#' :: (ds ++ ')' :: post) →
      ds ≠ [] → (∀ ch ∈ ds, ch.isDigit = true) →
      (∀ j, j < pre.length → prMatchAt (msg.data.drop j) = none) →
      findPRNumber msg.data = some (digitsToNat ds)) ∧
    (∀ env c, findPRNumber (Commit.message c).data = none →
      prFromCommit env c =
        .error (.msg "no matches found when parsing PR from commit") ∧
      notesFilterStep env c = []) := by
  refine ⟨?_, ?_, ?_⟩
  · constructor
    · rintro ⟨n, hn⟩
      obtain ⟨k, hk, _⟩ := findPRNumber_some_char msg.data n hn
      obtain ⟨ds, post, hdec, hne, hdig, _⟩ := (prMatchAt_some_iff _ _).mp hk
      refine ⟨msg.data.take k, ds, post, ?_, hne, hdig⟩
      rw [← hdec, List.take_append_drop]
    · rintro ⟨pre, ds, post, hdec, hne, hdig⟩
      cases hfp : findPRNumber msg.data with
      | some n => exact ⟨n, rfl⟩
      | none =>
        have hall := (findPRNumber_none_iff msg.data).mp hfp
        have h1 := hall pre.length
        rw [hdec, List.drop_left] at h1
        rw [(prMatchAt_some_iff _ _).mpr ⟨ds, post, rfl, hne, hdig, rfl⟩] at h1
        exact absurd h1 (by simp)
  · intro pre ds post hdec hne hdig hbefore
    rw [hdec] at hbefore ⊢
    exact findPRNumber_leftmost pre ds post hne hdig hbefore
  · intro env c h
    exact ⟨prFromCommit_noParse env c h, notesFilterStep_noParse env c h⟩

/-- C2 counterexample: a message whose FIRST line has no trailer but
whose second line does — extraction succeeds (refuting "first message
line"). -/
theorem prFromCommit_first_line_counterexample :
    prFromCommit c2Env c2Commit = .ok c2PR ∧
    findPRNumber (firstLineChars c2Commit.message.data) = none := by
  constructor
  · decide
  · decide

/-- C2 witness. -/
theorem prFromCommit_whole_message_witness :
    findPRNumber (("Fix widget rendering (#1234)" : String)).data = some 1234 := by
  have h := (prFromCommit_whole_message "Fix widget rendering (#1234)").2.1
    ("Fix widget rendering ").data ("1234").data []
    (by decide) (by decide) (by decide) (by decide)
  have h2 : digitsToNat (("1234" : String)).data = 1234 := by decide
  rw [h2] at h
  exact h

/-- C5 (amended): the assembled note text is the commit message's first
line with EVERY `(#<digits>)` marker deleted (left to right,
non-overlapping) and the result whitespace-trimmed.  A line in which the
marker regex matches nowhere is kept verbatim, and a match-free line
followed by one trailing marker loses exactly that marker. -/
theorem note_text_strips_all_markers (c : Commit) (pr : PullRequest) (iss : Option Issue) :
    (buildNote c pr iss).text =
      String.mk (goTrimSpace (removeAllPR (firstLineChars c.message.data))) ∧
    (∀ a : List Char, (∀ n, prMatchCore (a.drop n) = none) → removeAllPR a = a) ∧
    (∀ a ds : List Char, (∀ n, prMatchCore (a.drop n) = none) → ds ≠ [] →
      (∀ ch ∈ ds, ch.isDigit = true) →
      removeAllPR (a ++ '(' :: '#' :: (ds ++ [')'])) = a) :=
  ⟨buildNote_text c pr iss, removeAllPR_id, removeAllPR_trailing_marker⟩

/-- C5 counterexample: a first line with a marker in the middle AND one
at the end loses BOTH (refuting "only the trailing marker is stripped;
text before it is preserved unchanged"). -/
theorem note_text_middle_marker_counterexample :
    (buildNote ⟨"sha0", "Fix (#12) widget (#34)", "alice"⟩
        ⟨34, "", "alice", []⟩ none).text = "Fix  widget" ∧
    ("Fix  widget" : String) ≠ "Fix (#12) widget" := by
  constructor
  · decide
  · decide

/-- C5 witness. -/
theorem note_text_strips_all_markers_witness :
    removeAllPR (("Fix bug " : String).data ++ '(' :: '#' :: (("42" : String).data ++ [')'])) =
      ("Fix bug " : String).data :=
  (note_text_strips_all_markers ⟨"sha0", "m", "a"⟩ ⟨1, "", "a", []⟩ none).2.2
    ("Fix bug " : String).data ("42" : String).data
    (prMatchCore_none_forall _ (by decide)) (by decide) (by decide)

/-- C6: the assembled note's `duplicate` flag is true exactly when the
note is neither action-required nor a feature and the PR carries
strictly more than one `sig/`-prefixed label; with at most one such
label `duplicate` is false. -/
theorem duplicate_classification (c : Commit) (pr : PullRequest) (iss : Option Issue) :
    ((buildNote c pr iss).duplicate = true ↔
      (buildNote c pr iss).actionRequired = false ∧
      (buildNote c pr iss).feature = false ∧
      1 < pr.labels.countP (fun label => pfxOf ("sig/").data label.data)) ∧
    (pr.labels.countP (fun label => pfxOf ("sig/").data label.data) ≤ 1 →
      (buildNote c pr iss).duplicate = false) := by
  have hlen := stringsWithPfx_length pr.labels "sig/"
  constructor
  · rw [buildNote_duplicate, buildNote_actionRequired, buildNote_feature,
      dupAndSuffix_fst_iff, hlen]
  · intro hle
    cases hd : (buildNote c pr iss).duplicate with
    | false => rfl
    | true =>
      have h1 := ((dupAndSuffix_fst_iff pr iss).mp
        ((buildNote_duplicate c pr iss) ▸ hd)).2.2
      rw [hlen] at h1
      omega

/-- C6 witness. -/
theorem duplicate_classification_witness :
    (buildNote ⟨"sha0", "m", "a"⟩ ⟨1, "", "a", ["sig/ui"]⟩ none).duplicate = false :=
  (duplicate_classification ⟨"sha0", "m", "a"⟩ ⟨1, "", "a", ["sig/ui"]⟩ none).2
    (by decide)

/-- C7: the assembled note's `feature` flag is true exactly when the PR
carries the `kind/feature` label (regardless of any issue), or an issue
was resolved and it does not carry a `bug` label. -/
theorem feature_classification (c : Commit) (pr : PullRequest) (iss : Option Issue) :
    (buildNote c pr iss).feature = true ↔
      ("kind/feature" ∈ pr.labels ∨ ∃ i, iss = some i ∧ "bug" ∉ i.labels) := by
  rw [buildNote_feature]
  exact featureOf_iff pr iss

/-- C10: when the closing-keyword pattern matches the commit message,
`IssueNumbersFromCommit` returns exactly the one-element list holding
the first (leftmost) match's number — even when the message references
several issues — and when nothing matches it returns an error. -/
theorem issueNumbers_single (c : Commit) :
    (∀ l, issueNumbersFromCommit c = .ok l →
      ∃ n, findFirstIssue c.message.data = some n ∧ l = [n]) ∧
    (issueNumbersFromCommit c =
        .error (.msg "no matches found when parsing Issues from commit") ↔
      findFirstIssue c.message.data = none) := by
  unfold issueNumbersFromCommit
  cases hall : findAllIssueNumbers c.message.data with
  | nil =>
    constructor
    · intro l hl
      exact absurd hl (by simp)
    · constructor
      · intro _
        exact (findAllIssueNumbers_nil_iff _).mp hall
      · intro _
        rfl
  | cons m tl =>
    constructor
    · intro l hl
      simp only [Except.ok.injEq] at hl
      refine ⟨m, ?_, hl.symm⟩
      rw [← findAllIssueNumbers_head, hall]
      rfl
    · constructor
      · intro h
        exact absurd h (by simp)
      · intro h
        rw [← findAllIssueNumbers_head, hall] at h
        simp at h

/-- C10 witness: a message with two issue references yields the single
number of the first. -/
theorem issueNumbers_single_witness :
    ∃ n, findFirstIssue (("Fixes #12 and Closes #34" : String)).data = some n ∧
      ([12] : List Nat) = [n] :=
  (issueNumbers_single ⟨"sha0", "Fixes #12 and Closes #34", "a"⟩).1 [12] (by decide)

/-- C3 (amended): extraction succeeds exactly when one of the four fence
variants matches somewhere in the input (tried in fixed order); the
result is the winning greedy nonempty non-newline capture with ALL
trailing carriage returns trimmed, then EVERY occurrence of an
action-required marker followed by a whitespace character removed
(case-insensitively), and EVERY `*` followed by a whitespace character
removed; inputs matching no variant fail with the exact no-match error.
The final three conjuncts pin down the cleanup passes: trimming removes
exactly the trailing carriage returns, and the two replacement passes
leave marker-free text unchanged. -/
theorem noteTextFromString_four_variants (s : String) :
    ((∃ t, noteTextFromString s = .ok t) ↔ AnyFenceMatch s.data) ∧
    (∀ t, noteTextFromString s = .ok t →
      ∃ cap, noteCapture s.data = some cap ∧ cap ≠ [] ∧
        (∀ ch ∈ cap, ch ≠ '\n') ∧
        t = String.mk (stripStarChars (stripActionRequiredChars (trimRightCR cap)))) ∧
    (noteTextFromString s =
        .error (.msg "no matches found when parsing note text from commit string") ↔
      ¬ AnyFenceMatch s.data) ∧
    (∀ l : List Char, ∃ k, l = trimRightCR l ++ List.replicate k '\r' ∧
      (trimRightCR l).getLast? ≠ some '\r') ∧
    (∀ lit l, (∀ n, ciWsMatchAt lit (l.drop n) = false) →
      removeAllCiLitWs lit l = l) ∧
    (∀ l, (∀ n, starWsAt (l.drop n) = false) → stripStarChars l = l) := by
  refine ⟨?_, ?_, ?_, trimRightCR_spec, removeAllCiLitWs_id, stripStarChars_id⟩
  · rw [← noteCapture_isSome_iff]
    unfold noteTextFromString
    cases hc : noteCapture s.data with
    | some cap => simp
    | none => simp
  · intro t h
    obtain ⟨cap, hcap, ht⟩ := noteTextFromString_ok s t h
    obtain ⟨hne, hnn⟩ := noteCapture_some_decomp s.data cap hcap
    exact ⟨cap, hcap, hne, hnn, ht⟩
  · rw [noteTextFromString_error_iff, ← noteCapture_isSome_iff]
    cases noteCapture s.data <;> simp

/-- C3 counterexample: a capture ending in TWO carriage returns loses
both (`strings.TrimRight` trims the whole run), refuting "a single
trailing carriage return trimmed". -/
theorem noteTextFromString_double_cr_counterexample :
    noteTextFromString "```release-note\r\nfoo\r\r\n" = .ok "foo" ∧
    ("foo" : String) ≠ "foo\r" := by
  constructor
  · decide
  · decide

/-- C3 witness. -/
theorem noteTextFromString_four_variants_witness :
    ∃ cap, noteCapture (("```release-note\r\nhi\r\n" : String)).data = some cap ∧
      cap ≠ [] ∧ (∀ ch ∈ cap, ch ≠ '\n') ∧
      ("hi" : String) =
        String.mk (stripStarChars (stripActionRequiredChars (trimRightCR cap))) :=
  (noteTextFromString_four_variants "```release-note\r\nhi\r\n").2.1 "hi" (by decide)

/-- C4 (amended/corrected): a remote PR-lookup failure inside
`ListCommitsWithNotes` does NOT skip the commit — only the exact
parse-failure message is recognised, so the commit is processed with the
nil PR's empty body and retained once by the catch-all inclusion filter.
A failure of `ReleaseNoteFromCommit` (remote or otherwise) makes the
`ListReleaseNotes` loop skip that commit and continue.  A remote failure
while resolving either range boundary commit, or while fetching the
first commit page, aborts the whole run. -/
theorem remote_error_handling :
    (∀ env (c : Commit) n re, findPRNumber c.message.data = some n →
      Env.getPR env n = .error re → notesFilterStep env c = [c]) ∧
    (∀ env (c : Commit) cs seen e, releaseNoteFromCommit env c = .error e →
      listReleaseNotesLoop env (c :: cs) seen = listReleaseNotesLoop env cs seen) ∧
    (∀ env (startSha endSha : String) err, Env.getCommit env startSha = .error err →
      listReleaseNotes env startSha endSha = .error err) ∧
    (∀ env (startSha endSha : String) c0 err, Env.getCommit env startSha = .ok c0 →
      Env.getCommit env endSha = .error err →
      listReleaseNotes env startSha endSha = .error err) ∧
    (∀ env (startSha endSha : String) c0 c1 err, Env.getCommit env startSha = .ok c0 →
      Env.getCommit env endSha = .ok c1 → Env.listPage env 1 = .error err →
      listReleaseNotes env startSha endSha = .error err) := by
  refine ⟨?_, ?_, ?_, ?_, ?_⟩
  · intro env c n re hn hre
    exact notesFilterStep_remoteErr env c n re hn hre
  · intro env c cs seen e he
    exact listReleaseNotesLoop_skip env c cs seen e he
  · intro env startSha endSha err h
    exact listReleaseNotes_err env startSha endSha err
      (listCommits_startErr env startSha endSha err h)
  · intro env startSha endSha c0 err hs h
    exact listReleaseNotes_err env startSha endSha err
      (listCommits_endErr env startSha endSha c0 err hs h)
  · intro env startSha endSha c0 c1 err hs he hp
    exact listReleaseNotes_err env startSha endSha err
      (listCommits_pageErr env startSha endSha c0 c1 err hs he hp)

/-- C4 counterexample: with every PR lookup failing with a transport
error, `ListCommitsWithNotes` still RETURNS the commit (it is not
skipped and nothing is logged on this path), refuting "that commit is
skipped and logged". -/
theorem remote_error_not_skipped_counterexample :
    listCommitsWithNotes c4Env "s" "e" = .ok [c4Commit] ∧
    ([c4Commit] : List Commit) ≠ [] := by
  constructor
  · decide
  · decide

/-- C4 witness. -/
theorem remote_error_handling_witness :
    notesFilterStep c4Env c4Commit = [c4Commit] :=
  remote_error_handling.1 c4Env c4Commit 9 RemoteErr.transport (by decide) (by decide)

/-- C8: `ListReleaseNotes` drops every assembled note whose trimmed text
is exactly `NONE`, and the returned list is the stable first-wins
deduplication (keyed on exact note text) of the remaining candidates, in
order: texts are pairwise distinct and the output is an order-preserving
subsequence of the candidate list. -/
theorem listReleaseNotes_dedupe (env : Env) (startSha endSha : String)
    (cs : List Commit) (ns : List ReleaseNote)
    (hw : listCommitsWithNotes env startSha endSha = .ok cs)
    (hn : listReleaseNotes env startSha endSha = .ok ns) :
    ns = dedupeByText [] (noteCandidates env cs) ∧
    (∀ n ∈ ns, ¬ String.mk (goTrimSpace n.text.data) = "NONE") ∧
    (ns.map (fun n => n.text)).Nodup ∧
    ns.Sublist (noteCandidates env cs) := by
  have h2 := listReleaseNotes_ok env startSha endSha cs hw
  rw [hn] at h2
  simp only [Except.ok.injEq] at h2
  have hns : ns = dedupeByText [] (noteCandidates env cs) := by
    rw [h2, listReleaseNotesLoop_eq]
  refine ⟨hns, ?_, ?_, ?_⟩
  · intro n hmem
    rw [hns] at hmem
    have hcand := mem_dedupeByText _ _ _ hmem
    obtain ⟨c, _, _, _, hnone⟩ := (mem_noteCandidates env cs n).mp hcand
    exact hnone
  · rw [hns]
    exact (dedupeByText_nodup_aux [] _).1
  · rw [hns]
    exact dedupeByText_sublist [] _

/-- C8 witness: the doubled commit produced by the inclusion loop is
collapsed to a single note by the text-keyed dedupe. -/
theorem listReleaseNotes_dedupe_witness :
    [happyNote] = dedupeByText [] (noteCandidates happyEnv [happyCommit, happyCommit]) ∧
    (∀ n ∈ [happyNote], ¬ String.mk (goTrimSpace n.text.data) = "NONE") ∧
    ([happyNote].map (fun n => n.text)).Nodup ∧
    ([happyNote] : List ReleaseNote).Sublist
      (noteCandidates happyEnv [happyCommit, happyCommit]) :=
  listReleaseNotes_dedupe happyEnv "s" "e" [happyCommit, happyCommit] [happyNote]
    (by decide) (by decide)

/-- C9: every note returned by `ListReleaseNotes` was assembled from a
commit of the walked-and-filtered range whose author login is NOT the
designated bot account `netdatabot` — bot-authored commits never
contribute a note. -/
theorem bot_commits_never_output (env : Env) (startSha endSha : String)
    (ns : List ReleaseNote) (n : ReleaseNote)
    (h : listReleaseNotes env startSha endSha = .ok ns) (hmem : n ∈ ns) :
    ∃ cs c, listCommitsWithNotes env startSha endSha = .ok cs ∧ c ∈ cs ∧
      ¬ c.authorLogin = "netdatabot" ∧ releaseNoteFromCommit env c = .ok n := by
  unfold listReleaseNotes at h
  cases hw : listCommitsWithNotes env startSha endSha with
  | error e =>
    rw [hw] at h
    exact absurd h (by simp)
  | ok cs =>
    rw [hw] at h
    simp only [Except.ok.injEq] at h
    rw [← h] at hmem
    rw [listReleaseNotesLoop_eq] at hmem
    have hcand := mem_dedupeByText _ _ _ hmem
    obtain ⟨c, hc, hbot, hok, _⟩ := (mem_noteCandidates env cs n).mp hcand
    exact ⟨cs, c, rfl, hc, hbot, hok⟩

/-- C9 witness. -/
theorem bot_commits_never_output_witness :
    ∃ cs c, listCommitsWithNotes happyEnv "s" "e" = .ok cs ∧ c ∈ cs ∧
      ¬ c.authorLogin = "netdatabot" ∧ releaseNoteFromCommit happyEnv c = .ok happyNote :=
  bot_commits_never_output happyEnv "s" "e" [happyNote] happyNote
    (by decide) (by decide)

end ReleaseNotes
